import Mathlib

/-!
# smallsh: command parser, variable expander and execution engine

A shallow embedding of the two builds of the shell, `src/main_array.c` (the
polling build, namespace `MainArray`) and `src/main_signal.c` (the
signal-driven build, namespace `MainSignal`), and theorems about them.

Conventions of the embedding:

* a C string is the list of its characters before the terminating NUL
  (`CStr`); a `char *` that may be `NULL` is an `Option CStr`;
* the global `struct command inputs` is passed explicitly;
* an array of pointers is the list of its leading entries, every entry past
  the end of the list being `NULL` (the array is zero-filled by `memset`); a
  read of `args` at an index outside the array is recorded as such
  (`outOfBounds`);
* a statement whose behaviour C does not define (a store past the end of an
  array, a `sprintf` past the end of its buffer, the use of a `NULL` result)
  gives no result: `none`, or the ending `undefined` of a run;
* what the operating system answers (the result of `fork`, of `open`, of
  `waitpid`) is an argument of the function that makes the call;
* what a function prints is returned as the text written to standard output.
-/

namespace Smallsh

/-! ## C strings -/

/-- The characters of a C string, terminator excluded. -/
abbrev CStr := List Char

/-- Capacity of `args` (`#define ARGS_LIMIT 512`). -/
def ARGS_LIMIT : Nat := 512

/-- Length of the marker (`#define VAR_LENGTH 2`). -/
def VAR_LENGTH : Nat := 2

/-- Capacity of the background table (`#define PROCESS_LIMIT 200`). -/
def PROCESS_LIMIT : Nat := 200

/-- Read of `s[i]` for `i ≤ strlen(s)`: the byte at `strlen(s)` is the terminator. -/
def charAt (s : CStr) (i : Nat) : Char := s.getD i (Char.ofNat 0)

/-- Text of `needle` found at the start of `s` (the comparison `strstr` makes at one offset). -/
def startsWith : CStr → CStr → Bool
  | _, [] => true
  | [], _ :: _ => false
  | c :: s, d :: needle => c == d && startsWith s needle

/-- The libc `strstr`: offset of the first occurrence of `needle` in `s`, `none` for `NULL`. -/
def strstr : CStr → CStr → Option Nat
  | [], needle => if needle = [] then some 0 else none
  | c :: s, needle =>
    if startsWith (c :: s) needle then some 0 else (strstr s needle).map (· + 1)

/-- The marker `"$$"`. -/
def marker : CStr := ['$', '$']

/-- The test `strstr(token, "$$")` of `parseCommand`. -/
def hasMarker (token : CStr) : Bool := (strstr token marker).isSome

/-- Conversion `%d` of `printf` and `sprintf`. -/
def fmtInt (n : Int) : CStr :=
  if n < 0 then '-' :: Nat.toDigits 10 n.natAbs else Nat.toDigits 10 n.toNat

/-- Size of the buffer that receives the pid text (`#define MAX_PID_LENGTH 7`). -/
def MAX_PID_LENGTH : Nat := 7

/-- The call `sprintf(shellPidStr, "%d", inputs.shellPid)` of both builds, on the
local `char shellPidStr[MAX_PID_LENGTH]`: the text left in the buffer. The text
and its terminator take `strlen + 1` bytes; when they do not fit the buffer the
call writes past its end and the behaviour is not defined (`none`). -/
def sprintfPid (shellPid : Int) : Option CStr :=
  if (fmtInt shellPid).length + 1 ≤ MAX_PID_LENGTH then some (fmtInt shellPid) else none

/-! ## `strtok_r` with the delimiter set `" "` -/

/-- First phase of `strtok_r`: skip the leading delimiters. -/
def skipSpaces : CStr → CStr
  | [] => []
  | c :: s => if c = ' ' then skipSpaces s else c :: s

/-- Second phase of `strtok_r`: the token runs up to the next delimiter, which is
overwritten by NUL; the save pointer is left after it (or at the terminator). -/
def tokenEnd : CStr → CStr × CStr
  | [] => ([], [])
  | c :: s => if c = ' ' then ([], s) else ((tokenEnd s).1.cons c, (tokenEnd s).2)

/-- One call of `strtok_r(_, " ", &saveptr)` on the text at the save pointer:
`none` is `NULL`, otherwise the token and the new save pointer. -/
def strtok_r (s : CStr) : Option (CStr × CStr) :=
  match skipSpaces s with
  | [] => none
  | c :: s' => some (tokenEnd (c :: s'))

/-- The tokens returned by successive `strtok_r` calls until `NULL`. -/
def strtokAll : Nat → CStr → List CStr
  | 0, _ => []
  | fuel + 1, s =>
    match strtok_r s with
    | none => []
    | some (token, saveptr) => token :: strtokAll fuel saveptr

/-- All the tokens of a line: every call consumes at least one character, so
`strlen + 1` calls reach `NULL`. -/
def tokenize (s : CStr) : List CStr := strtokAll (s.length + 1) s

/-! ## Arrays of pointers -/

/-- Read `a[i]`. -/
def arrayGet (a : List (Option CStr)) (i : Nat) : Option CStr := a.getD i none

/-- Store `a[i] = p`. -/
def arraySet : List (Option CStr) → Nat → Option CStr → List (Option CStr)
  | [], 0, p => [p]
  | [], i + 1, p => none :: arraySet [] i p
  | _ :: a, 0, p => p :: a
  | x :: a, i + 1, p => x :: arraySet a i p

/-- The outcome of reading `args[idx]` for a signed index. -/
inductive ArgRead where
  | outOfBounds (idx : Int)
  | value (p : Option CStr)
  deriving DecidableEq, Repr

/-- Read `args[idx]`: defined only for `0 ≤ idx < ARGS_LIMIT`. -/
def readArg (args : List (Option CStr)) (idx : Int) : ArgRead :=
  if 0 ≤ idx ∧ idx < (ARGS_LIMIT : Int) then .value (arrayGet args idx.toNat)
  else .outOfBounds idx

/-! ## Wait statuses (the libc macros on the `int` filled in by `waitpid`) -/

/-- The macro `WIFEXITED`. -/
def WIFEXITED (status : Nat) : Bool := status % 128 == 0

/-- The macro `WEXITSTATUS`. -/
def WEXITSTATUS (status : Nat) : Nat := status / 256 % 256

/-- The macro `WIFSIGNALED`. -/
def WIFSIGNALED (status : Nat) : Bool := 1 ≤ status % 128 && status % 128 ≤ 126

/-- The macro `WTERMSIG`. -/
def WTERMSIG (status : Nat) : Nat := status % 128

/-- What `parseCommand` does when `strtok_r` returns `NULL`. -/
inductive ParseAction where
  | chdir (arg : ArgRead)
  | executeCommand
  deriving DecidableEq, Repr

/-! ## Operating-system calls -/

/-- The flags given to `open`. -/
inductive OFlag where
  | O_RDONLY
  | O_WRONLY
  | O_CREAT
  | O_TRUNC
  deriving DecidableEq, Repr

/-- One `open` call: the path (a `char *`), the flags or-ed together and the mode, if given. -/
structure OpenCall where
  path : Option CStr
  flags : List OFlag
  mode : Option Nat
  deriving DecidableEq, Repr

/-- The string `"/dev/null"`. -/
def devNull : CStr := "/dev/null".toList

/-- The signals the shell names. -/
inductive Signal where
  | SIGINT
  | SIGTSTP
  | SIGCHLD
  deriving DecidableEq, Repr

/-- The `struct sigaction` globals, by the handler each one carries. -/
inductive Action where
  | ignoreAction
  | defaultAction
  | actionSIGTSTP
  | actionSIGCHLD
  deriving DecidableEq, Repr

/-- The calls the shell makes, in program order. -/
inductive Event where
  | dup (fd : Nat)
  | openFile (call : OpenCall)
  | dup2 (fd : Int) (target : Nat)
  | close (fd : Int)
  | printf (text : CStr)
  | perror (text : CStr)
  | sigaction (signo : Signal) (act : Action)
  | fork
  | waitpid (pid : Int) (nohang : Bool)
  | raise (signo : Signal)
  | execvp (file : Option CStr) (argv : List (Option CStr))
  | chdir (path : ArgRead)
  | write (text : CStr)
  deriving DecidableEq, Repr

/-- How a run ends in the process that runs it: the function returns, the
process exits, the process image is replaced by `execvp`, or the behaviour is
not defined by C. -/
inductive Ending (σ : Type) where
  | returned (inputs : σ)
  | exited (code : Nat)
  | replaced
  | undefined
  deriving DecidableEq, Repr

/-- A run: the calls made and the way it ends. -/
structure Run (σ : Type) where
  trace : List Event
  ending : Ending σ
  deriving DecidableEq, Repr

/-- What the operating system answers to the calls of one `executeCommand`
(each call is made at most once per run). -/
structure Answers where
  dupStdin : Int
  openSource : Int
  dup2Source : Int
  dupStdout : Int
  openTarget : Int
  dup2Target : Int
  fork : Int
  execvp : Int
  waitpid : Int
  childExitStatus : Nat
  waitpidAny : Int
  dup2RestoreStdin : Int
  dup2RestoreStdout : Int
  deriving DecidableEq, Repr

/-- The answers of a run in which every call succeeds: descriptors are handed
out in order, `fork` returns `forkResult` and the wait stores `status`. -/
def allSucceed (forkResult : Int) (status : Nat) : Answers :=
  { dupStdin := 3, openSource := 4, dup2Source := 0, dupStdout := 5, openTarget := 6,
    dup2Target := 1, fork := forkResult, execvp := 0, waitpid := forkResult,
    childExitStatus := status, waitpidAny := -1, dup2RestoreStdin := 0,
    dup2RestoreStdout := 1 }

/-- The largest `int`. -/
def INT_MAX : Nat := 2147483647

/-- The call `write(STDOUT_FILENO, message, n)`: the first `n` bytes of the message. -/
def writeBytes (message : CStr) (n : Nat) : Event := .write (message.take n)

/-- The kernel's view of one child of the shell. -/
inductive Child where
  | running
  | terminated (status : Nat)
  | reaped
  deriving DecidableEq, Repr

/-- The kernel's answer to `waitpid(pid, &status, WNOHANG)` for a child in the
given state (POSIX): the value returned, the status stored and the child's new
state. A running child gives 0, a terminated one is reaped and gives its pid,
and a child already reaped is no child any more and gives -1. -/
def waitpidNoHang (pid : Int) : Child → Int × Nat × Child
  | .running => (0, 0, .running)
  | .terminated status => (pid, status, .reaped)
  | .reaped => (-1, 0, .reaped)

/-- The probe answers of a scan when every pid probed is that of a child in the
given state. -/
def kernelProbe (child : Child) : Nat → Int → Int × Nat :=
  fun _ pid => ((waitpidNoHang pid child).1, (waitpidNoHang pid child).2.1)

/-- Conversion `%s` of `printf`: glibc prints `(null)` for a null pointer. -/
def fmtStr (p : Option CStr) : CStr := p.getD "(null)".toList

/-- The test guarding input redirection,
`inputFile != NULL || (inputFile == NULL && background)`, and the `open` call
made under it. -/
def sourceOpen (inputFile : Option CStr) (background : Bool) : Option OpenCall :=
  if inputFile ≠ none ∨ (inputFile = none ∧ background = true) then
    if background then some { path := some devNull, flags := [.O_RDONLY], mode := none }
    else some { path := inputFile, flags := [.O_RDONLY], mode := none }
  else none

/-- The test guarding output redirection and the `open` call made under it. -/
def targetOpen (outputFile : Option CStr) (background : Bool) : Option OpenCall :=
  if outputFile ≠ none ∨ (outputFile = none ∧ background = true) then
    if background then some { path := some devNull, flags := [.O_WRONLY], mode := none }
    else some { path := outputFile, flags := [.O_WRONLY, .O_CREAT, .O_TRUNC], mode := some 0o644 }
  else none

namespace MainArray

/-! ## The polling build (`src/main_array.c`) -/

/-- The `struct command` of `main_array.c`. -/
structure command where
  args : List (Option CStr)
  argSize : Nat
  argExp : Nat
  background : Bool
  exitStatus : Int
  signalTerm : Bool
  shellPid : Int
  inputFile : Option CStr
  inputRe : Bool
  outputFile : Option CStr
  outputRe : Bool
  backgroundOff : Bool
  backgroundPids : List Int
  bgPidSize : Nat
  deriving DecidableEq, Repr

/-- The state `main` sets up before its loop, for the pid `getpid` returned. -/
def init (pid : Int) : command :=
  { args := [], argSize := 0, argExp := 0, background := false, exitStatus := 0,
    signalTerm := false, shellPid := pid, inputFile := none, inputRe := false,
    outputFile := none, outputRe := false, backgroundOff := false,
    backgroundPids := List.replicate PROCESS_LIMIT 0, bgPidSize := 0 }

/-- The replacement loop of `varExp` (`while (i < strlen(token))`): `i` is the
read index and `newToken` the text built so far by `strcat`. -/
def varExpLoop (token shellPidStr : CStr) : Nat → Nat → CStr → CStr
  | 0, _, newToken => newToken
  | fuel + 1, i, newToken =>
    if i < token.length then
      if charAt token i = '$' ∧ charAt token (i + 1) = '$' then
        varExpLoop token shellPidStr fuel (i + 2) (newToken ++ shellPidStr)
      else
        varExpLoop token shellPidStr fuel (i + 1) (newToken ++ [charAt token i])
    else newToken

/-- The function `varExp`: the pid text is first written to `shellPidStr`
(`none` when it does not fit), then the loop runs; the index advances at every
iteration, so `strlen(token)` iterations are enough. The block `malloc` returns
is taken to hold the text the loop builds and its terminator, and to hold the
empty string after the `memset`. -/
def varExp (shellPid : Int) (token : CStr) : Option CStr :=
  match sprintfPid shellPid with
  | none => none
  | some shellPidStr => some (varExpLoop token shellPidStr token.length 0 [])

/-- The effect of `inputs.args[inputs.argSize] = token; inputs.argSize++;` when
the index is inside the array. -/
def pushArg (inputs : command) (token : CStr) : command :=
  { inputs with
    args := arraySet inputs.args inputs.argSize (some token)
    argSize := inputs.argSize + 1 }

/-- The statement `inputs.args[inputs.argSize] = token; inputs.argSize++;` as
`parseCommand` makes it, with no test of the index: `args` has `ARGS_LIMIT`
entries, so a store at an index from `ARGS_LIMIT` on is outside the array and
the behaviour is not defined (`none`). -/
def storeArg (inputs : command) (token : CStr) : Option command :=
  if inputs.argSize < ARGS_LIMIT then some (pushArg inputs token) else none

/-- The `while (token != NULL)` loop of `parseCommand`, over the tokens the
remaining `strtok_r` calls return: the state and the call made when `strtok_r`
returns `NULL`, `none` when a statement on the way has no defined behaviour. -/
def parseLoop (cdArg bgArg : Bool) : List CStr → command → Option (command × ParseAction)
  | [], inputs =>
    if cdArg then some (inputs, .chdir (readArg inputs.args ((inputs.argSize : Int) - 1)))
    else some (inputs, .executeCommand)
  | token :: rest, inputs =>
    if hasMarker token then
      match varExp inputs.shellPid token with
      | none => none
      | some newToken =>
        match storeArg { inputs with argExp := inputs.argSize } newToken with
        | none => none
        | some stored => parseLoop cdArg bgArg rest stored
    else if token = ['<'] then
      parseLoop cdArg bgArg rest { inputs with inputRe := true }
    else if token = ['>'] then
      parseLoop cdArg bgArg rest { inputs with outputRe := true }
    else if token = ['&'] ∧ inputs.backgroundOff = false ∧ bgArg = true then
      parseLoop cdArg bgArg rest { inputs with background := true }
    else if token = ['&'] ∧ inputs.backgroundOff = true ∧ bgArg = true then
      parseLoop cdArg bgArg rest inputs
    else if inputs.inputRe then
      parseLoop cdArg bgArg rest { inputs with inputFile := some token, inputRe := false }
    else if inputs.outputRe then
      parseLoop cdArg bgArg rest { inputs with outputFile := some token, outputRe := false }
    else
      match storeArg inputs token with
      | none => none
      | some stored => parseLoop cdArg bgArg rest stored

/-- The test `userInput[strlen(userInput) - 1] == '&'`. -/
def endsWithAmp (userInput : CStr) : Bool := userInput.getLast? == some '&'

/-- The body of `parseCommand` once the line is cut into tokens: `none` when the
first `strtok_r` call returns `NULL` (the `strcmp` on it is undefined) and when
the loop has no defined result. -/
def parseTokens (bgArg : Bool) (tokens : List CStr) (inputs : command) :
    Option (command × ParseAction) :=
  match tokens with
  | [] => none
  | token :: rest =>
    if token = ['c', 'd'] then parseLoop true bgArg rest inputs
    else
      match storeArg inputs token with
      | none => none
      | some stored => parseLoop false bgArg rest stored

/-- The function `parseCommand`. -/
def parseCommand (userInput : CStr) (inputs : command) : Option (command × ParseAction) :=
  parseTokens (endsWithAmp userInput) (tokenize userInput) inputs

/-- The end of the child branch: `sigaction`, `execvp`, then `perror` and `exit(1)` when
`execvp` returns. -/
def childExec (os : Answers) (inputs : command) (t : List Event) : Run command :=
  if os.execvp = -1 then
    ⟨t ++ [.sigaction .SIGINT .defaultAction, .execvp (arrayGet inputs.args 0) inputs.args,
        .perror (fmtStr (arrayGet inputs.args 0))], .exited 1⟩
  else
    ⟨t ++ [.sigaction .SIGINT .defaultAction, .execvp (arrayGet inputs.args 0) inputs.args],
      .replaced⟩

/-- The output half of the child branch. -/
def childTarget (os : Answers) (inputs : command) (t : List Event) : Run command :=
  match targetOpen inputs.outputFile inputs.background with
  | some call =>
    if os.openTarget = -1 then
      ⟨t ++ [.openFile call, .perror "target open() error!".toList], .exited 1⟩
    else if os.dup2Target = -1 then
      ⟨t ++ [.openFile call, .dup2 os.openTarget 1, .perror "target dup2() error!".toList],
        .exited 1⟩
    else childExec os inputs (t ++ [.openFile call, .dup2 os.openTarget 1])
  | none => childExec os inputs t

/-- The child branch (`case 0`) of `executeCommand`: redirections, then `execvp`. -/
def childBranch (os : Answers) (inputs : command) : Run command :=
  match sourceOpen inputs.inputFile inputs.background with
  | some call =>
    if os.openSource = -1 then
      ⟨[.fork, .openFile call,
          .printf ("cannot open ".toList ++ fmtStr inputs.inputFile ++ " for input\n".toList)],
        .exited 1⟩
    else if os.dup2Source = -1 then
      ⟨[.fork, .openFile call, .dup2 os.openSource 0, .perror "source dup2() error!".toList],
        .exited 1⟩
    else childTarget os inputs [.fork, .openFile call, .dup2 os.openSource 0]
  | none => childTarget os inputs [.fork]

/-- The parent branch (`default`) of `executeCommand`, `childPid` being what `fork` returned. -/
def parentBranch (os : Answers) (inputs : command) (childPid : Int) : Run command :=
  if inputs.background then
    ⟨[.fork, .waitpid childPid true,
        .printf ("background pid is: ".toList ++ fmtInt childPid ++ "\n".toList)],
      .returned { inputs with
        backgroundPids := inputs.backgroundPids.set inputs.bgPidSize childPid
        bgPidSize := if inputs.bgPidSize + 1 = 200 then 0 else inputs.bgPidSize + 1 }⟩
  else if WIFEXITED os.childExitStatus then
    ⟨[.fork, .waitpid childPid false, .sigaction .SIGINT .ignoreAction],
      .returned { inputs with signalTerm := false, exitStatus := WEXITSTATUS os.childExitStatus }⟩
  else if WIFSIGNALED os.childExitStatus then
    ⟨[.fork, .waitpid childPid false,
        .printf ("terminated by signal ".toList ++ fmtInt (WTERMSIG os.childExitStatus) ++
          "\n".toList),
        .sigaction .SIGINT .ignoreAction],
      .returned { inputs with signalTerm := true, exitStatus := WTERMSIG os.childExitStatus }⟩
  else
    ⟨[.fork, .waitpid childPid false, .sigaction .SIGINT .ignoreAction], .returned inputs⟩

/-- The function `executeCommand` of `main_array.c`, in the process that called
`fork` (`os.fork` is `-1` or the child's pid) and in the child (`os.fork = 0`). -/
def executeCommand (os : Answers) (inputs : command) : Run command :=
  if os.fork = -1 then ⟨[.fork, .perror "fork() error!\n".toList], .exited 1⟩
  else if os.fork = 0 then childBranch os inputs
  else parentBranch os inputs os.fork

/-- Lines 146-153 of `main`, on the characters `getline` returned: the last one
(the newline) is overwritten by NUL, then every space before it. -/
def trimLine (raw : CStr) : CStr := (skipSpaces raw.dropLast.reverse).reverse

/-- The `status` branch of the main loop: the text it prints. -/
def statusBuiltin (inputs : command) : CStr :=
  if !inputs.signalTerm then "exit value ".toList ++ fmtInt inputs.exitStatus ++ "\n".toList
  else "terminated by signal ".toList ++ fmtInt inputs.exitStatus ++ "\n".toList

/-- The resets at the end of every iteration of the main loop (lines 198-214). -/
def resetLine (inputs : command) : command :=
  { inputs with
    argSize := 0
    background := false
    inputFile := none
    outputFile := none
    argExp := 0
    args := [] }

/-- The two `printf` calls of the scan (lines 114-125), for the pid `waitpid`
returned and the status it stored: nothing is printed for a status that is
neither an exit nor a termination by a signal. -/
def reportLine (childPid : Int) (childExitStatus : Nat) : List Event :=
  if WIFEXITED childExitStatus then
    [.printf ("background pid ".toList ++ fmtInt childPid ++ " is done: exit value ".toList ++
      fmtInt (WEXITSTATUS childExitStatus) ++ "\n".toList)]
  else if WIFSIGNALED childExitStatus then
    [.printf ("background pid ".toList ++ fmtInt childPid ++
      " is done: terminated by signal ".toList ++ fmtInt (WTERMSIG childExitStatus) ++
      "\n".toList)]
  else []

/-- The scan of the background table at the top of the main loop (lines
104-130), from index `i` on: `probe i pid` is what `waitpid(pid, &status,
WNOHANG)` returns and stores when slot `i` is probed. -/
def pollLoop (probe : Nat → Int → Int × Nat) :
    Nat → Nat → List Int → List Event → List Int × List Event
  | 0, _, backgroundPids, t => (backgroundPids, t)
  | fuel + 1, i, backgroundPids, t =>
    if i < PROCESS_LIMIT then
      if backgroundPids.getD i 0 ≠ 0 then
        if 0 < (probe i (backgroundPids.getD i 0)).1 then
          pollLoop probe fuel (i + 1) (backgroundPids.set i 0)
            (t ++ [.waitpid (backgroundPids.getD i 0) true] ++
              reportLine (probe i (backgroundPids.getD i 0)).1
                (probe i (backgroundPids.getD i 0)).2)
        else
          pollLoop probe fuel (i + 1) backgroundPids
            (t ++ [.waitpid (backgroundPids.getD i 0) true])
      else pollLoop probe fuel (i + 1) backgroundPids t
    else (backgroundPids, t)

/-- The whole scan: `i` runs from 0 to `PROCESS_LIMIT`, so `PROCESS_LIMIT`
iterations are enough. -/
def pollBackground (probe : Nat → Int → Int × Nat) (backgroundPids : List Int) :
    List Int × List Event :=
  pollLoop probe PROCESS_LIMIT 0 backgroundPids []

/-- The branch of the `if` chain of the main loop (lines 155-196) a trimmed line takes. -/
inductive Branch where
  | blank
  | comment
  | exitBuiltin
  | cdBuiltin
  | statusBuiltin
  | parse
  deriving DecidableEq, Repr

/-- The tests of the `if` chain of the main loop, in order. -/
def branchOf (userInput : CStr) : Branch :=
  if charAt userInput 0 = Char.ofNat 0 then .blank
  else if charAt userInput 0 = '#' then .comment
  else if userInput = "exit".toList ∨ userInput = "exit &".toList then .exitBuiltin
  else if userInput = ['c', 'd'] ∨ userInput = "cd &".toList then .cdBuiltin
  else if userInput = "status".toList ∨ userInput = "status &".toList then .statusBuiltin
  else .parse

/-- The body of the main loop from the trimming of the line to the per-line
reset (lines 146-216), on the characters `raw` that `getline` returned, `home`
being the value of `getenv("HOME")`. After `exit` the loop is left and `main`
returns 0. -/
def mainBody (os : Answers) (home : Option CStr) (raw : CStr) (inputs : command) :
    Run command :=
  match branchOf (trimLine raw) with
  | .blank => ⟨[], .returned (resetLine inputs)⟩
  | .comment => ⟨[.printf "\n".toList], .returned (resetLine inputs)⟩
  | .exitBuiltin => ⟨[], .exited 0⟩
  | .cdBuiltin => ⟨[.chdir (.value home)], .returned (resetLine inputs)⟩
  | .statusBuiltin => ⟨[.printf (statusBuiltin inputs)], .returned (resetLine inputs)⟩
  | .parse =>
    match parseCommand (trimLine raw) inputs with
    | none => ⟨[], .undefined⟩
    | some (parsed, .chdir arg) => ⟨[.chdir arg], .returned (resetLine parsed)⟩
    | some (parsed, .executeCommand) =>
      match executeCommand os parsed with
      | ⟨t, .returned after⟩ => ⟨t, .returned (resetLine after)⟩
      | ⟨t, ending⟩ => ⟨t, ending⟩

/-- One iteration of the main loop: the scan of the background table, the
prompt, and the body on the line read (`none` when `getline` returned -1). -/
def mainIteration (probe : Nat → Int → Int × Nat) (os : Answers) (home : Option CStr)
    (raw : Option CStr) (inputs : command) : Run command :=
  match raw with
  | none =>
    ⟨(pollBackground probe inputs.backgroundPids).2 ++ [.printf ": ".toList],
      .returned { inputs with backgroundPids := (pollBackground probe inputs.backgroundPids).1 }⟩
  | some line =>
    ⟨(pollBackground probe inputs.backgroundPids).2 ++ [.printf ": ".toList] ++
        (mainBody os home line
          { inputs with
            backgroundPids := (pollBackground probe inputs.backgroundPids).1 }).trace,
      (mainBody os home line
        { inputs with
          backgroundPids := (pollBackground probe inputs.backgroundPids).1 }).ending⟩

/-- The working directory after the `chdir` calls of a trace, `result` being
what `chdir` returns: a failed call leaves the directory as it is (POSIX). -/
def cwdAfter (result : Int) (cwd : Option CStr) : List Event → Option CStr
  | [] => cwd
  | .chdir (.value (some path)) :: t =>
    if result = 0 then cwdAfter result (some path) t else cwdAfter result cwd t
  | _ :: t => cwdAfter result cwd t

/-- The handler `handleSIGTSTP`: the new state and the `write` it makes. -/
def handleSIGTSTP (inputs : command) : command × List Event :=
  if !inputs.backgroundOff then
    ({ inputs with backgroundOff := true },
      [writeBytes "\nEntering foreground-only mode (& is now ignored)\n".toList 50])
  else
    ({ inputs with backgroundOff := false },
      [writeBytes "\nExiting foreground-only mode\n".toList 30])

end MainArray

namespace MainSignal

/-! ## The signal-driven build (`src/main_signal.c`) -/

/-- The `struct command` of `main_signal.c`. -/
structure command where
  args : List (Option CStr)
  argSize : Nat
  argExp : Nat
  background : Bool
  exitStatus : Int
  signalTerm : Bool
  shellPid : Int
  inputFile : Option CStr
  inputRe : Bool
  outputFile : Option CStr
  outputRe : Bool
  backgroundOff : Bool
  deriving DecidableEq, Repr

/-- The state `main` sets up before its loop, for the pid `getpid` returned. -/
def init (pid : Int) : command :=
  { args := [], argSize := 0, argExp := 0, background := false, exitStatus := 0,
    signalTerm := false, shellPid := pid, inputFile := none, inputRe := false,
    outputFile := none, outputRe := false, backgroundOff := false }

/-- The replacement loop `while (replaces--)` of `varExp` in `main_signal.c`:
`token` is the text at the moving pointer `token` and `newToken` the text
written so far up to `temp`. Each iteration searches `"$$"` with `strstr`,
copies the `lenDist` characters before it and the pid text, and moves `token`
past the pair; the pointer difference taken on a `NULL` result is not defined
(`none`). After the loop `strcpy(temp, token)` copies what is left. -/
def varExpLoop (shellPidStr : CStr) : Nat → CStr → CStr → Option CStr
  | 0, token, newToken => some (newToken ++ token)
  | replaces + 1, token, newToken =>
    match strstr token marker with
    | none => none
    | some lenDist =>
      varExpLoop shellPidStr replaces (token.drop (lenDist + VAR_LENGTH))
        (newToken ++ token.take lenDist ++ shellPidStr)

/-- The function `varExp` of `main_signal.c`: the pid text is first written to
`shellPidStr` (`none` when it does not fit), and `replaces` is the number of `$`
characters of the token divided by `VAR_LENGTH`. -/
def varExp (shellPid : Int) (token : CStr) : Option CStr :=
  match sprintfPid shellPid with
  | none => none
  | some shellPidStr => varExpLoop shellPidStr (token.count '$' / VAR_LENGTH) token []

/-- The loop `int i = 1; while (n / (i * 10) != 0) i *= 10;` of `handleSIGCHLD`,
from the value `i`: the value of `i` after the loop, `none` when `i * 10` is
not an `int` (signed overflow). -/
def scaleLoop (n : Nat) : Nat → Nat → Option Nat
  | 0, _ => none
  | fuel + 1, i =>
    if INT_MAX < i * 10 then none
    else if n / (i * 10) ≠ 0 then scaleLoop n fuel (i * 10)
    else some i

/-- The loop `for (; 0 < i; i /= 10) { char c = (char) (n / i) + '0';
write(STDOUT_FILENO, &c, 1); n = n % i; }` of `handleSIGCHLD`. -/
def digitLoop : Nat → Nat → Nat → List Event
  | 0, _, _ => []
  | fuel + 1, n, i =>
    if 0 < i then .write [Char.ofNat ((n / i + 48) % 256)] :: digitLoop fuel (n % i) (i / 10)
    else []

/-- The two loops that write the number `n`: `i` is multiplied by 10 at most 9
times before `i * 10` overflows, and then divided by 10 at most 10 times. -/
def writeNumber (n : Nat) : Option (List Event) :=
  (scaleLoop n 10 1).map (fun i => digitLoop 11 n i)

/-- The handler `handleSIGCHLD`, `childPid` and `childStatus` being what
`waitpid(-1, &childStatus, WNOHANG)` returned and stored: the calls it makes,
`none` when an overflow or the read of the uninitialised `exitStatus` makes the
behaviour undefined. -/
def handleSIGCHLD (childPid : Int) (childStatus : Nat) : Option (List Event) :=
  if 0 < childPid then
    if WIFEXITED childStatus then do
      let pidDigits ← writeNumber childPid.toNat
      let statusDigits ← writeNumber (WEXITSTATUS childStatus)
      pure ([.waitpid (-1) true, writeBytes "background pid ".toList 15] ++ pidDigits ++
        [writeBytes " is done: exit value ".toList 21] ++ statusDigits ++
        [writeBytes "\n".toList 1])
    else if WIFSIGNALED childStatus then do
      let pidDigits ← writeNumber childPid.toNat
      let statusDigits ← writeNumber (WTERMSIG childStatus)
      pure ([.waitpid (-1) true, writeBytes "background pid ".toList 15] ++ pidDigits ++
        [writeBytes " is done: terminated by signal ".toList 31] ++ statusDigits ++
        [writeBytes "\n".toList 1])
    else none
  else some [.waitpid (-1) true]

/-- The end of the parent branch: restore the standard streams saved in
`curStdin` and `curStdout`, then announce a background child. -/
def parentRestore (os : Answers) (inputs : command) (curStdin curStdout childPid : Int)
    (t : List Event) : Run command :=
  let t1 := if curStdin ≠ 0 then
      t ++ [.dup2 curStdin 0, .close os.openSource, .close curStdin] else t
  let t2 := if curStdout ≠ 0 then
      t1 ++ [.dup2 curStdout 1, .printf "\n".toList, .close os.openTarget, .close curStdout]
    else t1
  if curStdin ≠ 0 ∧ os.dup2RestoreStdin = -1 then
    ⟨t ++ [.dup2 curStdin 0, .perror "source dup2() restore error!".toList], .exited 2⟩
  else if curStdout ≠ 0 ∧ os.dup2RestoreStdout = -1 then
    ⟨t1 ++ [.dup2 curStdout 1, .perror "target dup2() restore error!".toList], .exited 2⟩
  else if inputs.background then
    ⟨t2 ++ [.printf ("background pid is: ".toList ++ fmtInt childPid ++ "\n".toList)],
      .returned inputs⟩
  else ⟨t2, .returned inputs⟩

/-- The tail of the foreground wait: a second wait when the first returned `-1`,
then the signal dispositions are put back and `SIGCHLD` is raised. -/
def afterWait (os : Answers) (t : List Event) : List Event × Int :=
  if os.waitpid = -1 then
    (t ++ [.waitpid (-1) false, .sigaction .SIGINT .ignoreAction,
        .sigaction .SIGCHLD .actionSIGCHLD, .raise .SIGCHLD], os.waitpidAny)
  else
    (t ++ [.sigaction .SIGINT .ignoreAction, .sigaction .SIGCHLD .actionSIGCHLD,
        .raise .SIGCHLD], os.waitpid)

/-- The `switch (childPid)` of `executeCommand`, `t` being the calls made before `fork`. -/
def forkSwitch (os : Answers) (inputs : command) (curStdin curStdout : Int)
    (t : List Event) : Run command :=
  if os.fork = -1 then ⟨t ++ [.fork, .perror "fork() error!\n".toList], .exited 1⟩
  else if os.fork = 0 then
    if os.execvp = -1 then
      ⟨t ++ [.fork, .sigaction .SIGINT .defaultAction,
          .execvp (arrayGet inputs.args 0) inputs.args,
          .perror (fmtStr (arrayGet inputs.args 0))], .exited 1⟩
    else
      ⟨t ++ [.fork, .sigaction .SIGINT .defaultAction,
          .execvp (arrayGet inputs.args 0) inputs.args], .replaced⟩
  else if inputs.background then
    parentRestore os inputs curStdin curStdout os.fork (t ++ [.fork, .waitpid os.fork true])
  else if WIFEXITED os.childExitStatus then
    parentRestore os
      { inputs with signalTerm := false, exitStatus := WEXITSTATUS os.childExitStatus }
      curStdin curStdout (afterWait os (t ++ [.fork, .waitpid os.fork false])).2
      (afterWait os (t ++ [.fork, .waitpid os.fork false])).1
  else if WIFSIGNALED os.childExitStatus then
    parentRestore os
      { inputs with signalTerm := true, exitStatus := WTERMSIG os.childExitStatus }
      curStdin curStdout
      (afterWait os (t ++ [.fork, .waitpid os.fork false,
        .printf ("terminated by signal ".toList ++ fmtInt (WTERMSIG os.childExitStatus) ++
          "\n".toList)])).2
      (afterWait os (t ++ [.fork, .waitpid os.fork false,
        .printf ("terminated by signal ".toList ++ fmtInt (WTERMSIG os.childExitStatus) ++
          "\n".toList)])).1
  else
    parentRestore os inputs curStdin curStdout
      (afterWait os (t ++ [.fork, .waitpid os.fork false])).2
      (afterWait os (t ++ [.fork, .waitpid os.fork false])).1

/-- The step between the redirections and `fork`: a foreground command sets
`SIGCHLD` to the default action. -/
def beforeFork (os : Answers) (inputs : command) (curStdin curStdout : Int)
    (t : List Event) : Run command :=
  if !inputs.background then
    forkSwitch os inputs curStdin curStdout (t ++ [.sigaction .SIGCHLD .defaultAction])
  else forkSwitch os inputs curStdin curStdout t

/-- The output redirection of `executeCommand`, made in the shell itself. -/
def redirectTarget (os : Answers) (inputs : command) (curStdin : Int) (t : List Event) :
    Run command :=
  match targetOpen inputs.outputFile inputs.background with
  | some call =>
    if os.openTarget = -1 then
      ⟨t ++ [.dup 1, .openFile call, .perror "target open() error!".toList], .exited 1⟩
    else if os.dup2Target = -1 then
      ⟨t ++ [.dup 1, .openFile call, .dup2 os.openTarget 1,
          .perror "target dup2() error!".toList], .exited 1⟩
    else beforeFork os inputs curStdin os.dupStdout
      (t ++ [.dup 1, .openFile call, .dup2 os.openTarget 1])
  | none => beforeFork os inputs curStdin 0 t

/-- The function `executeCommand` of `main_signal.c`: the input redirection, made
in the shell itself, and the rest of the function. -/
def executeCommand (os : Answers) (inputs : command) : Run command :=
  match sourceOpen inputs.inputFile inputs.background with
  | some call =>
    if os.openSource = -1 then
      ⟨[.dup 0, .openFile call,
          .printf ("cannot open ".toList ++ fmtStr inputs.inputFile ++ " for input\n".toList)],
        .returned { inputs with signalTerm := false, exitStatus := 1 }⟩
    else if os.dup2Source = -1 then
      ⟨[.dup 0, .openFile call, .dup2 os.openSource 0, .perror "source dup2() error!".toList],
        .exited 1⟩
    else redirectTarget os inputs os.dupStdin [.dup 0, .openFile call, .dup2 os.openSource 0]
  | none => redirectTarget os inputs 0 []

end MainSignal

/-! ## Reference definitions, worded as the specification words them -/

/-- The reference left-to-right scan of the expander: at each position, when the
current and the next character are both `$`, emit the pid text and skip both;
otherwise emit the current character. -/
def expandRef (pidText : CStr) : CStr → CStr
  | [] => []
  | [c] => [c]
  | c :: d :: rest =>
    if c = '$' ∧ d = '$' then pidText ++ expandRef pidText rest
    else c :: expandRef pidText (d :: rest)

/-- What one scan does to a slot holding `pid`, as the specification words it:
a non-zero slot whose probe returns a positive pid is freed, any other slot is
left as it is. -/
def slotAfter (probe : Nat → Int → Int × Nat) (i : Nat) (pid : Int) : Int :=
  if pid ≠ 0 ∧ 0 < (probe i pid).1 then 0 else pid

/-- The calls one scan makes for slot `i` holding `pid`: none for an empty
slot, the probe for a slot in use, followed by the report when the probe
returns a positive pid. -/
def slotEvents (probe : Nat → Int → Int × Nat) (i : Nat) (pid : Int) : List Event :=
  if pid = 0 then []
  else if 0 < (probe i pid).1 then
    .waitpid pid true :: MainArray.reportLine (probe i pid).1 (probe i pid).2
  else [.waitpid pid true]

/-- One scan described slot by slot, for the slots from index `i` on. -/
def scanRef (probe : Nat → Int → Int × Nat) : Nat → List Int → List Int × List Event
  | _, [] => ([], [])
  | i, pid :: rest =>
    (slotAfter probe i pid :: (scanRef probe (i + 1) rest).1,
      slotEvents probe i pid ++ (scanRef probe (i + 1) rest).2)

/-- The line of `n + 1` tokens `a`, separated by single spaces. -/
def manyTokens : Nat → CStr
  | 0 => ['a']
  | n + 1 => 'a' :: ' ' :: manyTokens n

/-- A line, as `getline` returns it, that asks for a background command. -/
def bgLine : CStr := "sleep 5 &\n".toList

/-- The state with which the main loop goes on after a run that returned, the
given state otherwise. -/
def afterRun (r : Run MainArray.command) (otherwise : MainArray.command) :
    MainArray.command :=
  match r.ending with
  | .returned inputs => inputs
  | _ => otherwise

/-- A session in which every line is `sleep 5 &`: one iteration of the main
loop per entry, with the probe answers of the scan before the prompt and the
pid `fork` returns for the command. -/
def session : List ((Nat → Int → Int × Nat) × Int) → MainArray.command → MainArray.command
  | [], inputs => inputs
  | (probe, childPid) :: rest, inputs =>
    session rest
      (afterRun (MainArray.mainIteration probe (allSucceed childPid 0) none (some bgLine) inputs)
        inputs)

/-- The probe answers when every child is still running. -/
def stillRunning : Nat → Int → Int × Nat := fun _ _ => (0, 0)

/-- The bytes the `write` calls of a trace put on standard output, in order. -/
def bytesWritten : List Event → CStr
  | [] => []
  | .write text :: t => text ++ bytesWritten t
  | _ :: t => bytesWritten t

/-- The last `k` decimal digits of `n`, most significant first. -/
def paddedDigits : Nat → Nat → CStr
  | 0, _ => []
  | k + 1, n => paddedDigits k (n / 10) ++ [Nat.digitChar (n % 10)]

/-- The number of `$$` pairs the reference scan replaces. -/
def scanPairs : CStr → Nat
  | [] => 0
  | [_] => 0
  | c :: d :: rest =>
    if c = '$' ∧ d = '$' then scanPairs rest + 1 else scanPairs (d :: rest)

/-- A redirection operator, `<` or `>`. -/
def isOperator (t : CStr) : Bool := t == ['<'] || t == ['>']

/-- A plain token: it holds no `$$` and is none of `&`, `<`, `>`. -/
def isPlain (t : CStr) : Bool :=
  !hasMarker t && !(t == ['&']) && !isOperator t

/-- Every token is plain, apart from operators that are each directly followed
by a plain token. -/
def plainWithRedirs : List CStr → Bool
  | [] => true
  | t :: rest =>
    if isOperator t then
      match rest with
      | [] => false
      | p :: rest' => isPlain p && plainWithRedirs rest'
    else isPlain t && plainWithRedirs rest

/-- The token that follows the operator `op`, if `op` is among the tokens. -/
def redirTarget (op : CStr) : List CStr → Option CStr
  | [] => none
  | t :: rest => if t = op then rest.head? else redirTarget op rest

/-- The tokens that are left when every operator and the token after it are removed. -/
def withoutRedirs : List CStr → List CStr
  | [] => []
  | t :: rest =>
    if isOperator t then
      match rest with
      | [] => []
      | _ :: rest' => withoutRedirs rest'
    else t :: withoutRedirs rest

/-- The array after the stores `a[n] = t₀, a[n+1] = t₁, ...`. -/
def pushAll : List (Option CStr) → Nat → List CStr → List (Option CStr)
  | a, _, [] => a
  | a, n, t :: ts => pushAll (arraySet a n (some t)) (n + 1) ts

/-! ## Lemmas on strings and on the expander -/

theorem charAt_drop (s : CStr) (i : Nat) (h : i < s.length) :
    s.drop i = charAt s i :: s.drop (i + 1) := by
  induction s generalizing i with
  | nil => simp at h
  | cons c s ih =>
    cases i with
    | zero => simp [charAt]
    | succ i =>
      have h' : i < s.length := by simpa using h
      simpa [charAt] using ih i h'

theorem lt_length_of_charAt_dollar (s : CStr) (i : Nat) (h : charAt s i = '$') :
    i < s.length := by
  by_contra hlt
  have hle : s.length ≤ i := by omega
  unfold charAt at h
  rw [List.getD_eq_default _ _ hle] at h
  exact absurd h (by decide)

theorem arrayGet_arraySet (a : List (Option CStr)) (n : Nat) (v : Option CStr) (i : Nat) :
    arrayGet (arraySet a n v) i = if i = n then v else arrayGet a i := by
  induction a generalizing n i with
  | nil =>
    induction n generalizing i with
    | zero => cases i <;> simp [arrayGet, arraySet]
    | succ n ih =>
      cases i with
      | zero => simp [arrayGet, arraySet]
      | succ i =>
        simpa [arrayGet, arraySet] using ih i
  | cons x a ih =>
    cases n with
    | zero => cases i <;> simp [arrayGet, arraySet]
    | succ n =>
      cases i with
      | zero => simp [arrayGet, arraySet]
      | succ i =>
        simpa [arrayGet, arraySet] using ih n i

theorem toDigitsCore_acc (f n : Nat) (ds : List Char) (x : Char) (hx : x ∈ ds) :
    x ∈ Nat.toDigitsCore 10 f n ds := by
  induction f generalizing n ds with
  | zero => simpa [Nat.toDigitsCore] using hx
  | succ f ih =>
    simp only [Nat.toDigitsCore]
    split
    · exact List.mem_cons_of_mem _ hx
    · exact ih _ _ (List.mem_cons_of_mem _ hx)

theorem digitChar_mem_toDigits (n : Nat) : Nat.digitChar (n % 10) ∈ Nat.toDigits 10 n := by
  unfold Nat.toDigits
  simp only [Nat.toDigitsCore]
  split
  · exact List.mem_cons_self _ _
  · exact toDigitsCore_acc _ _ _ _ (List.mem_cons_self _ _)

theorem digitChar_ne_amp (k : Nat) (hk : k < 10) : Nat.digitChar k ≠ '&' := by
  interval_cases k <;> decide

theorem fmtInt_has_other (n : Int) : ∃ c ∈ fmtInt n, c ≠ '&' := by
  unfold fmtInt
  split
  · exact ⟨'-', List.mem_cons_self _ _, by decide⟩
  · exact ⟨_, digitChar_mem_toDigits _, digitChar_ne_amp _ (Nat.mod_lt _ (by decide))⟩

theorem hasMarker_cons_cons (c d : Char) (rest : CStr) :
    hasMarker (c :: d :: rest) = ((c == '$' && d == '$') || hasMarker (d :: rest)) := by
  simp only [hasMarker, strstr, marker, startsWith]
  by_cases h : (c == '$' && d == '$') = true
  · simp [h]
  · simp only [Bool.not_eq_true] at h
    simp [h]

theorem pid_mem_expandRef (p : CStr) (x : Char) (hx : x ∈ p) :
    ∀ token : CStr, hasMarker token = true → x ∈ expandRef p token := by
  intro token
  induction token using expandRef.induct p with
  | case1 => intro h; simp [hasMarker, strstr, marker] at h
  | case2 c => intro h; simp [hasMarker, strstr, marker, startsWith] at h
  | case3 c d rest hcd ih =>
    intro _
    simp [expandRef, hcd, hx]
  | case4 c d rest hcd ih =>
    intro h
    rw [hasMarker_cons_cons] at h
    have h' : hasMarker (d :: rest) = true := by
      simp only [Bool.or_eq_true, Bool.and_eq_true, beq_iff_eq] at h
      rcases h with h | h
      · exact absurd h hcd
      · exact h
    simp only [expandRef, if_neg hcd]
    exact List.mem_cons_of_mem _ (ih h')

/-! ## Lemmas on the tokens of a line -/

theorem skipSpaces_head (s : CStr) : (skipSpaces s).head? ≠ some ' ' := by
  induction s with
  | nil => simp [skipSpaces]
  | cons x s ih =>
    unfold skipSpaces
    split
    · exact ih
    · rename_i h
      simpa using h

theorem skipSpaces_getLast (s : CStr) (c : Char) (h : s.getLast? = some c) (hc : c ≠ ' ') :
    (skipSpaces s).getLast? = some c ∧ (skipSpaces s).length ≤ s.length := by
  induction s with
  | nil => simp at h
  | cons x s ih =>
    unfold skipSpaces
    by_cases hx : x = ' '
    · rw [if_pos hx]
      cases s with
      | nil =>
        simp at h
        exact absurd (h ▸ hx) hc
      | cons y s =>
        have h' : (y :: s).getLast? = some c := by
          simpa [List.getLast?_cons_cons] using h
        have := ih h'
        exact ⟨this.1, by simp at this ⊢; omega⟩
    · rw [if_neg hx]
      exact ⟨h, Nat.le_refl _⟩

theorem tokenEnd_getLast (s : CStr) (c : Char) (h : s.getLast? = some c) (hc : c ≠ ' ') :
    ((tokenEnd s).2 = [] ∧ (tokenEnd s).1.getLast? = some c) ∨
    ((tokenEnd s).2.getLast? = some c ∧ (tokenEnd s).2.length < s.length) := by
  induction s with
  | nil => simp at h
  | cons x s ih =>
    unfold tokenEnd
    by_cases hx : x = ' '
    · rw [if_pos hx]
      cases s with
      | nil =>
        simp at h
        exact absurd (h ▸ hx) hc
      | cons y s =>
        right
        have h' : (y :: s).getLast? = some c := by
          simpa [List.getLast?_cons_cons] using h
        exact ⟨h', by simp⟩
    · rw [if_neg hx]
      cases s with
      | nil =>
        left
        simp at h
        simp [tokenEnd, h]
      | cons y s =>
        have h' : (y :: s).getLast? = some c := by
          simpa [List.getLast?_cons_cons] using h
        rcases ih h' with ⟨h1, h2⟩ | ⟨h1, h2⟩
        · left
          refine ⟨h1, ?_⟩
          cases hte : (tokenEnd (y :: s)).1 with
          | nil => rw [hte] at h2; simp at h2
          | cons a b =>
            rw [hte] at h2
            simpa [List.getLast?_cons_cons] using h2
        · right
          exact ⟨h1, by simp at h2 ⊢; omega⟩

theorem strtokAll_getLast :
    ∀ (fuel : Nat) (s : CStr) (c : Char), s.length < fuel → s.getLast? = some c → c ≠ ' ' →
      ∃ ts t, strtokAll fuel s = ts ++ [t] ∧ t.getLast? = some c := by
  intro fuel
  induction fuel with
  | zero => intro s c h; omega
  | succ fuel ih =>
    intro s c hlen hlast hc
    obtain ⟨hs1, hs2⟩ := skipSpaces_getLast s c hlast hc
    unfold strtokAll strtok_r
    cases hsk : skipSpaces s with
    | nil => rw [hsk] at hs1; simp at hs1
    | cons x s' =>
      rw [hsk] at hs1 hs2
      simp only
      rcases tokenEnd_getLast (x :: s') c hs1 hc with ⟨h1, h2⟩ | ⟨h1, h2⟩
      · refine ⟨[], (tokenEnd (x :: s')).1, ?_, h2⟩
        rw [h1]
        cases fuel <;> simp [strtokAll, strtok_r, skipSpaces]
      · obtain ⟨ts, t, hts, ht⟩ := ih (tokenEnd (x :: s')).2 c (by omega) h1 hc
        exact ⟨(tokenEnd (x :: s')).1 :: ts, t, by rw [hts]; simp, ht⟩

theorem tokenize_getLast (s : CStr) (c : Char) (h : s.getLast? = some c) (hc : c ≠ ' ') :
    ∃ ts t, tokenize s = ts ++ [t] ∧ t.getLast? = some c :=
  strtokAll_getLast (s.length + 1) s c (Nat.lt_succ_self _) h hc

theorem skipSpaces_length (s : CStr) : (skipSpaces s).length ≤ s.length := by
  induction s with
  | nil => simp [skipSpaces]
  | cons x s ih =>
    unfold skipSpaces
    split
    · simp; omega
    · simp

theorem tokenEnd_length (x : Char) (s : CStr) : (tokenEnd (x :: s)).2.length < (x :: s).length := by
  induction s generalizing x with
  | nil => unfold tokenEnd; split <;> simp [tokenEnd]
  | cons y s ih =>
    unfold tokenEnd
    split
    · simp
    · have := ih y
      simp at this ⊢
      omega

/-- The fuel of `tokenize` is enough: more calls return the same tokens. -/
theorem strtokAll_fuel :
    ∀ (fuel : Nat) (s : CStr), s.length < fuel → strtokAll fuel s = tokenize s := by
  have key : ∀ (f1 f2 : Nat) (s : CStr), s.length < f1 → s.length < f2 →
      strtokAll f1 s = strtokAll f2 s := by
    intro f1
    induction f1 with
    | zero => intro f2 s h; omega
    | succ f1 ih =>
      intro f2 s h1 h2
      cases f2 with
      | zero => omega
      | succ f2 =>
        unfold strtokAll strtok_r
        cases hsk : skipSpaces s with
        | nil => rfl
        | cons x s' =>
          simp only
          have hl := skipSpaces_length s
          rw [hsk] at hl
          have ht := tokenEnd_length x s'
          rw [ih f2 _ (by omega) (by omega)]
  intro fuel s h
  exact key fuel (s.length + 1) s h (Nat.lt_succ_self _)

/-- The tokens of a line are the results of the successive `strtok_r` calls:
the first call on the line, the next ones on the save pointer. -/
theorem tokenize_step (s : CStr) :
    tokenize s =
      match strtok_r s with
      | none => []
      | some (token, saveptr) => token :: tokenize saveptr := by
  unfold tokenize
  rw [strtokAll]
  cases hs : strtok_r s with
  | none => rfl
  | some p =>
    obtain ⟨token, saveptr⟩ := p
    simp only
    have hlen : saveptr.length < s.length := by
      unfold strtok_r at hs
      cases hsk : skipSpaces s with
      | nil => rw [hsk] at hs; simp at hs
      | cons x s' =>
        rw [hsk] at hs
        simp only [Option.some.injEq] at hs
        have h1 := skipSpaces_length s
        rw [hsk] at h1
        have h2 := tokenEnd_length x s'
        rw [hs] at h2
        simp only at h2
        omega
    rw [strtokAll_fuel s.length saveptr hlen]
    rfl

/-! ## The decimal text of a number -/

theorem paddedDigits_length (k n : Nat) : (paddedDigits k n).length = k := by
  induction k generalizing n with
  | zero => rfl
  | succ k ih => simp [paddedDigits, ih]

theorem toDigitsCore_padded :
    ∀ (k n fuel : Nat) (ds : List Char), n < 10 ^ (k + 1) → (k = 0 ∨ 10 ^ k ≤ n) → n < fuel →
      Nat.toDigitsCore 10 fuel n ds = paddedDigits (k + 1) n ++ ds := by
  intro k
  induction k with
  | zero =>
    intro n fuel ds hn _ hf
    cases fuel with
    | zero => omega
    | succ f =>
      have h0 : n / 10 = 0 := by omega
      simp [Nat.toDigitsCore, h0, paddedDigits]
  | succ k ih =>
    intro n fuel ds hn hk hf
    have hk' : 10 ^ (k + 1) ≤ n := by
      rcases hk with h | h
      · omega
      · exact h
    have h10 : 10 ≤ n := by
      have : 10 ^ 1 ≤ 10 ^ (k + 1) := Nat.pow_le_pow_right (by decide) (by omega)
      omega
    cases fuel with
    | zero => omega
    | succ f =>
      have h0 : n / 10 ≠ 0 := by omega
      have hdiv1 : n / 10 < 10 ^ (k + 1) := by
        rw [Nat.div_lt_iff_lt_mul (by decide)]
        rw [Nat.pow_succ] at hn
        exact hn
      have hdiv2 : 10 ^ k ≤ n / 10 := by
        rw [Nat.le_div_iff_mul_le (by decide)]
        rw [Nat.pow_succ] at hk'
        exact hk'
      have hrec := ih (n / 10) f (Nat.digitChar (n % 10) :: ds) hdiv1 (Or.inr hdiv2) (by omega)
      simp only [Nat.toDigitsCore, h0, if_false]
      rw [hrec]
      simp [paddedDigits]

theorem toDigits_padded (k n : Nat) (hn : n < 10 ^ (k + 1)) (hk : k = 0 ∨ 10 ^ k ≤ n) :
    Nat.toDigits 10 n = paddedDigits (k + 1) n := by
  unfold Nat.toDigits
  rw [toDigitsCore_padded k n (n + 1) [] hn hk (Nat.lt_succ_self _)]
  simp

/-! ## The expander -/

namespace MainArray

theorem varExpLoop_eq (token pid : CStr) :
    ∀ (fuel i : Nat) (acc : CStr), token.length ≤ i + fuel →
      varExpLoop token pid fuel i acc = acc ++ expandRef pid (token.drop i) := by
  intro fuel
  induction fuel with
  | zero =>
    intro i acc h
    have hnil : token.drop i = [] := List.drop_eq_nil_of_le (by omega)
    simp [varExpLoop, hnil, expandRef]
  | succ fuel ih =>
    intro i acc h
    unfold varExpLoop
    by_cases hi : i < token.length
    · rw [if_pos hi]
      by_cases hc : charAt token i = '$' ∧ charAt token (i + 1) = '$'
      · rw [if_pos hc, ih (i + 2) _ (by omega)]
        have h1 := lt_length_of_charAt_dollar token (i + 1) hc.2
        rw [charAt_drop token i hi, charAt_drop token (i + 1) h1, hc.1, hc.2]
        simp [expandRef]
      · rw [if_neg hc, ih (i + 1) _ (by omega), charAt_drop token i hi]
        by_cases h1 : i + 1 < token.length
        · rw [charAt_drop token (i + 1) h1]
          simp [expandRef, hc]
        · have hnil : token.drop (i + 1) = [] := List.drop_eq_nil_of_le (by omega)
          simp [hnil, expandRef]
    · rw [if_neg hi]
      have hnil : token.drop i = [] := List.drop_eq_nil_of_le (by omega)
      simp [hnil, expandRef]

theorem fmtInt_pid_fits (shellPid : Int) (h0 : 0 ≤ shellPid) (h1 : shellPid ≤ 999999) :
    fmtInt shellPid = Nat.toDigits 10 shellPid.toNat ∧
    (fmtInt shellPid).length + 1 ≤ MAX_PID_LENGTH := by
  have hfmt : fmtInt shellPid = Nat.toDigits 10 shellPid.toNat := by
    unfold fmtInt
    rw [if_neg (by omega)]
  refine ⟨hfmt, ?_⟩
  rw [hfmt]
  have hlt : shellPid.toNat < 10 ^ 6 := by omega
  have hlen := Nat.toDigitsCore_length 10 (by decide) (shellPid.toNat + 1) shellPid.toNat 6 hlt
    (by decide)
  unfold MAX_PID_LENGTH Nat.toDigits
  omega

theorem fmtInt_pid_overflows (shellPid : Int) (h : 1000000 ≤ shellPid) :
    ¬ (fmtInt shellPid).length + 1 ≤ MAX_PID_LENGTH := by
  have hfmt : fmtInt shellPid = Nat.toDigits 10 shellPid.toNat := by
    unfold fmtInt
    rw [if_neg (by omega)]
  have hn : 10 ^ 6 ≤ shellPid.toNat := by omega
  have hne : shellPid.toNat ≠ 0 := by omega
  have hlo : 10 ^ Nat.log 10 shellPid.toNat ≤ shellPid.toNat := Nat.pow_log_le_self 10 hne
  have hhi : shellPid.toNat < 10 ^ (Nat.log 10 shellPid.toNat + 1) :=
    Nat.lt_pow_succ_log_self (by decide) _
  have hk : 6 ≤ Nat.log 10 shellPid.toNat := by
    by_contra hc
    have h5 : Nat.log 10 shellPid.toNat + 1 ≤ 6 := by omega
    have : 10 ^ (Nat.log 10 shellPid.toNat + 1) ≤ 10 ^ 6 :=
      Nat.pow_le_pow_right (by decide) h5
    omega
  have hpad := toDigits_padded (Nat.log 10 shellPid.toNat) shellPid.toNat hhi (Or.inr hlo)
  rw [hfmt, hpad, paddedDigits_length]
  unfold MAX_PID_LENGTH
  omega

theorem varExp_expandRef_fmt (shellPid : Int) (token : CStr) :
    varExp shellPid token =
      if (fmtInt shellPid).length + 1 ≤ MAX_PID_LENGTH then
        some (expandRef (fmtInt shellPid) token)
      else none := by
  unfold varExp sprintfPid
  by_cases h : (fmtInt shellPid).length + 1 ≤ MAX_PID_LENGTH
  · simp only [if_pos h]
    rw [varExpLoop_eq token _ token.length 0 [] (by omega)]
    simp
  · simp only [if_neg h]

theorem varExp_ne_amp (pid : Int) (token newToken : CStr) (h : hasMarker token = true)
    (hv : varExp pid token = some newToken) : newToken ≠ ['&'] := by
  intro he
  obtain ⟨c, hc, hne⟩ := fmtInt_has_other pid
  rw [varExp_expandRef_fmt] at hv
  split at hv
  · simp only [Option.some.injEq] at hv
    have hmem : c ∈ newToken := by
      rw [← hv]
      exact pid_mem_expandRef _ c hc token h
    rw [he] at hmem
    simp at hmem
    exact hne hmem
  · simp at hv

/-- The polling `varExp` is the reference left-to-right scan for every token
and every shell pid from 0 to 999999, the pids whose text fits `shellPidStr`. -/
theorem varExp_eq_expandRef (shellPid : Int) (token : CStr) (hpid : 0 ≤ shellPid)
    (hfit : shellPid ≤ 999999) :
    varExp shellPid token = some (expandRef (Nat.toDigits 10 shellPid.toNat) token) := by
  obtain ⟨hfmt, hlen⟩ := fmtInt_pid_fits shellPid hpid hfit
  rw [varExp_expandRef_fmt, if_pos hlen, hfmt]

set_option maxRecDepth 8000 in
/-- C2 on the code. The pid text is written with `sprintf` to a buffer of
`MAX_PID_LENGTH = 7` bytes. For the shell pid 1000000 the text has seven
characters and takes eight bytes with its terminator: the call writes past the
end of the buffer and `varExp` has no defined result, where the reference scan
gives `1000000` for the token `$$`; the same holds for every pid from 1000000
on. For the pids from 0 to 999999 the text fits and `varExp` is the reference
scan on every token, the replacement loop giving this text with any number of
iterations from `strlen(token)` on; at `a$$b$$$` with pid 1234 it gives
`a1234b1234$`. -/
theorem varExp_pid_buffer :
    MAX_PID_LENGTH = 7 ∧
    (fmtInt 1000000).length + 1 = 8 ∧
    sprintfPid 1000000 = none ∧
    varExp 1000000 ['$', '$'] = none ∧
    expandRef (Nat.toDigits 10 1000000) ['$', '$'] = ['1', '0', '0', '0', '0', '0', '0'] ∧
    (∀ (shellPid : Int) (token : CStr), 1000000 ≤ shellPid → varExp shellPid token = none) ∧
    (∀ (shellPid : Int) (token : CStr), 0 ≤ shellPid → shellPid ≤ 999999 →
      varExp shellPid token = some (expandRef (Nat.toDigits 10 shellPid.toNat) token)) ∧
    (∀ (token shellPidStr : CStr) (fuel : Nat), token.length ≤ fuel →
      varExpLoop token shellPidStr fuel 0 [] = expandRef shellPidStr token) ∧
    varExp 1234 "a$$b$$$".toList = some "a1234b1234$".toList := by
  refine ⟨rfl, by decide, by decide, by decide, by decide, ?_, ?_, ?_, by decide⟩
  · intro shellPid token h
    rw [varExp_expandRef_fmt, if_neg (fmtInt_pid_overflows shellPid h)]
  · intro shellPid token h0 h1
    exact varExp_eq_expandRef shellPid token h0 h1
  · intro token shellPidStr fuel hfuel
    rw [varExpLoop_eq token _ fuel 0 [] (by omega)]
    simp

/-! ## The parser on plain tokens and redirections -/

theorem isPlain_iff (t : CStr) :
    isPlain t = true ↔ hasMarker t = false ∧ t ≠ ['&'] ∧ t ≠ ['<'] ∧ t ≠ ['>'] := by
  simp [isPlain, isOperator, and_assoc]

theorem plainWithRedirs_cons (t : CStr) (rest : List CStr) (h : isOperator t = false) :
    plainWithRedirs (t :: rest) = (isPlain t && plainWithRedirs rest) := by
  cases rest <;> simp [plainWithRedirs, h]

theorem withoutRedirs_cons (t : CStr) (rest : List CStr) (h : isOperator t = false) :
    withoutRedirs (t :: rest) = t :: withoutRedirs rest := by
  cases rest <;> simp [withoutRedirs, h]

theorem redirTarget_none (op : CStr) (l : List CStr) (h : l.count op = 0) :
    redirTarget op l = none := by
  induction l with
  | nil => rfl
  | cons t rest ih =>
    rw [List.count_cons] at h
    have hne : ¬ t = op := by
      intro e; subst e; simp at h
    have h0 : rest.count op = 0 := by omega
    simp [redirTarget, hne, ih h0]

theorem pushAll_map_some (ts : List CStr) (done : List CStr) :
    pushAll (done.map some) done.length ts = (done ++ ts).map some := by
  induction ts generalizing done with
  | nil => simp [pushAll]
  | cons t ts ih =>
    have h : arraySet (done.map some) done.length (some t) = (done ++ [t]).map some := by
      induction done with
      | nil => rfl
      | cons d done ihd => simp [arraySet, ihd]
    rw [pushAll, h]
    have h2 := ih (done ++ [t])
    simpa using h2

theorem storeArg_of_lt (c : command) (t : CStr) (h : c.argSize < ARGS_LIMIT) :
    storeArg c t = some (pushArg c t) := by
  simp [storeArg, h]

theorem storeArg_of_ge (c : command) (t : CStr) (h : ARGS_LIMIT ≤ c.argSize) :
    storeArg c t = none := by
  have h' : ¬ c.argSize < ARGS_LIMIT := by omega
  simp [storeArg, h']

theorem storeArg_eq_some (c stored : command) (t : CStr) (h : storeArg c t = some stored) :
    c.argSize < ARGS_LIMIT ∧ stored = pushArg c t := by
  unfold storeArg at h
  split at h
  · rename_i hlt
    simp only [Option.some.injEq] at h
    exact ⟨hlt, h.symm⟩
  · simp at h

/-- One iteration of the loop, with the two stores written as one step each. -/
theorem parseLoop_cons (cdArg bgArg : Bool) (token : CStr) (rest : List CStr)
    (inputs : command) :
    parseLoop cdArg bgArg (token :: rest) inputs =
      if hasMarker token then
        (varExp inputs.shellPid token).bind fun newToken =>
          (storeArg { inputs with argExp := inputs.argSize } newToken).bind
            (parseLoop cdArg bgArg rest)
      else if token = ['<'] then
        parseLoop cdArg bgArg rest { inputs with inputRe := true }
      else if token = ['>'] then
        parseLoop cdArg bgArg rest { inputs with outputRe := true }
      else if token = ['&'] ∧ inputs.backgroundOff = false ∧ bgArg = true then
        parseLoop cdArg bgArg rest { inputs with background := true }
      else if token = ['&'] ∧ inputs.backgroundOff = true ∧ bgArg = true then
        parseLoop cdArg bgArg rest inputs
      else if inputs.inputRe then
        parseLoop cdArg bgArg rest { inputs with inputFile := some token, inputRe := false }
      else if inputs.outputRe then
        parseLoop cdArg bgArg rest { inputs with outputFile := some token, outputRe := false }
      else (storeArg inputs token).bind (parseLoop cdArg bgArg rest) := by
  rw [parseLoop]
  by_cases hm : hasMarker token = true
  · rw [if_pos hm, if_pos hm]
    cases hv : varExp inputs.shellPid token with
    | none => rfl
    | some newToken =>
      simp only [Option.some_bind]
      cases hs : storeArg { inputs with argExp := inputs.argSize } newToken <;> rfl
  · rw [if_neg hm, if_neg hm]
    cases hs : storeArg inputs token <;> rfl

/-- One iteration of the loop on a plain token: only the last three branches can be taken. -/
theorem parseLoop_plain_step (cdArg bgArg : Bool) (t : CStr) (rest : List CStr) (c : command)
    (ht : isPlain t = true) :
    parseLoop cdArg bgArg (t :: rest) c =
      if c.inputRe then
        parseLoop cdArg bgArg rest { c with inputFile := some t, inputRe := false }
      else if c.outputRe then
        parseLoop cdArg bgArg rest { c with outputFile := some t, outputRe := false }
      else if c.argSize < ARGS_LIMIT then parseLoop cdArg bgArg rest (pushArg c t)
      else none := by
  obtain ⟨h1, h2, h3, h4⟩ := (isPlain_iff t).mp ht
  rw [parseLoop_cons]
  simp only [h1, h2, h3, h4, Bool.false_eq_true, if_false, false_and]
  by_cases hlt : c.argSize < ARGS_LIMIT
  · simp [storeArg_of_lt c t hlt, hlt]
  · simp [storeArg_of_ge c t (by omega), hlt]

/-- The loop on plain tokens and well-formed redirections, from any state with
no redirection pending, when every store is inside the array. -/
theorem parseLoop_plain (bgArg : Bool) :
    ∀ (n : Nat) (rest : List CStr) (c : command), rest.length ≤ n →
      plainWithRedirs rest = true → rest.count ['<'] ≤ 1 → rest.count ['>'] ≤ 1 →
      c.inputRe = false → c.outputRe = false →
      c.argSize + (withoutRedirs rest).length ≤ ARGS_LIMIT →
      parseLoop false bgArg rest c =
        some ({ c with
            args := pushAll c.args c.argSize (withoutRedirs rest)
            argSize := c.argSize + (withoutRedirs rest).length
            inputFile := (redirTarget ['<'] rest).or c.inputFile
            outputFile := (redirTarget ['>'] rest).or c.outputFile },
          .executeCommand) := by
  intro n
  induction n with
  | zero =>
    intro rest c hlen _ _ _ _ _ _
    have hnil : rest = [] := List.length_eq_zero.mp (by omega)
    subst hnil
    simp [parseLoop, withoutRedirs, pushAll, redirTarget]
  | succ n ih =>
    intro rest c hlen hwf hin hout hi ho hcap
    obtain ⟨args, argSize, argExp, background, exitStatus, signalTerm, shellPid, inputFile,
      inputRe, outputFile, outputRe, backgroundOff, backgroundPids, bgPidSize⟩ := c
    simp only at hi ho hcap
    subst hi ho
    cases rest with
    | nil => simp [parseLoop, withoutRedirs, pushAll, redirTarget]
    | cons t rest =>
      by_cases hop : isOperator t = true
      · cases rest with
        | nil => simp [plainWithRedirs, hop] at hwf
        | cons p rest =>
          simp only [plainWithRedirs, hop, if_true, Bool.and_eq_true] at hwf
          obtain ⟨hp, hwf⟩ := hwf
          obtain ⟨h1, h2, h3, h4⟩ := (isPlain_iff p).mp hp
          have hlen' : rest.length ≤ n := by simp at hlen; omega
          have hcap' : argSize + (withoutRedirs rest).length ≤ ARGS_LIMIT := by
            simpa [withoutRedirs, hop] using hcap
          simp only [isOperator, Bool.or_eq_true, beq_iff_eq] at hop
          rcases hop with rfl | rfl
          · have hc0 : rest.count ['<'] = 0 := by
              simp [List.count_cons, h3] at hin; omega
            have hc1 : rest.count ['>'] ≤ 1 := by
              simp [List.count_cons, h4] at hout; omega
            rw [parseLoop_cons]
            simp only [show hasMarker ['<'] = false by decide]
            simp only [Bool.false_eq_true, if_false, if_true]
            rw [parseLoop_plain_step _ _ _ _ _ hp]
            simp only [if_true]
            rw [ih rest _ hlen' hwf (by omega) hc1 rfl rfl hcap']
            simp [withoutRedirs, isOperator, redirTarget, redirTarget_none _ _ hc0, h3, h4]
          · have hc0 : rest.count ['>'] = 0 := by
              simp [List.count_cons, h4] at hout; omega
            have hc1 : rest.count ['<'] ≤ 1 := by
              simp [List.count_cons, h3] at hin; omega
            rw [parseLoop_cons]
            simp only [show hasMarker ['>'] = false by decide,
              show ¬ (['>'] : CStr) = ['<'] by decide]
            simp only [Bool.false_eq_true, if_false, if_true]
            rw [parseLoop_plain_step _ _ _ _ _ hp]
            simp only [if_true, Bool.false_eq_true, if_false]
            rw [ih rest _ hlen' hwf hc1 (by omega) rfl rfl hcap']
            simp [withoutRedirs, isOperator, redirTarget, redirTarget_none _ _ hc0, h3, h4]
      · have hop' : isOperator t = false := by simpa using hop
        rw [plainWithRedirs_cons t rest hop', Bool.and_eq_true] at hwf
        obtain ⟨hp, hwf⟩ := hwf
        obtain ⟨h1, h2, h3, h4⟩ := (isPlain_iff t).mp hp
        have hlen' : rest.length ≤ n := by simp at hlen; omega
        have hc0 : rest.count ['<'] ≤ 1 := by
          simp [List.count_cons, h3] at hin; omega
        have hc1 : rest.count ['>'] ≤ 1 := by
          simp [List.count_cons, h4] at hout; omega
        have hcap' : argSize + 1 + (withoutRedirs rest).length ≤ ARGS_LIMIT := by
          rw [withoutRedirs_cons t rest hop'] at hcap
          simp only [List.length_cons] at hcap
          omega
        have hlt : argSize < ARGS_LIMIT := by omega
        rw [parseLoop_plain_step _ _ _ _ _ hp]
        simp only [Bool.false_eq_true, if_false, hlt, if_true]
        rw [ih rest _ hlen' hwf hc0 hc1 rfl rfl (by simpa [pushArg] using hcap')]
        simp [withoutRedirs_cons t rest hop', redirTarget, h3, h4, pushArg, pushAll]
        omega

/-- C1, as the code has it. From the reset state with no redirection pending,
for every line whose first token is plain and not `cd`, whose further tokens
are plain apart from at most one `<` followed by a plain token `p` and at most
one `>` followed by a plain token `q`, and whose tokens other than the
operators, `p` and `q` are at most `ARGS_LIMIT = 512`, so that every store is
inside `args`: `parseCommand` calls `executeCommand` with `inputFile = p` (or
`NULL`), `outputFile = q` (or `NULL`), the background flag unset and `args`
holding the first token and then the remaining tokens in line order, with
neither the operators nor `p` nor `q`. -/
theorem parseCommand_plain_redirects (userInput : CStr) (inputs : command)
    (first : CStr) (rest : List CStr)
    (htok : tokenize userInput = first :: rest)
    (hfirst : isPlain first = true) (hcd : first ≠ ['c', 'd'])
    (hrest : plainWithRedirs rest = true)
    (hin : rest.count ['<'] ≤ 1) (hout : rest.count ['>'] ≤ 1)
    (hcap : (first :: withoutRedirs rest).length ≤ ARGS_LIMIT)
    (hargs : inputs.args = [] ∧ inputs.argSize = 0)
    (hfiles : inputs.inputFile = none ∧ inputs.outputFile = none)
    (hbg : inputs.background = false)
    (hre : inputs.inputRe = false ∧ inputs.outputRe = false) :
    parseCommand userInput inputs =
      some ({ inputs with
                args := (first :: withoutRedirs rest).map some
                argSize := (first :: withoutRedirs rest).length
                inputFile := redirTarget ['<'] rest
                outputFile := redirTarget ['>'] rest
                background := false },
            .executeCommand) := by
  have _hplain := hfirst
  obtain ⟨args, argSize, argExp, background, exitStatus, signalTerm, shellPid, inputFile,
    inputRe, outputFile, outputRe, backgroundOff, backgroundPids, bgPidSize⟩ := inputs
  simp only at hargs hfiles hbg hre
  obtain ⟨rfl, rfl⟩ := hargs
  obtain ⟨rfl, rfl⟩ := hfiles
  obtain ⟨rfl, rfl⟩ := hre
  subst hbg
  simp only [List.length_cons] at hcap
  unfold parseCommand
  rw [htok]
  simp only [parseTokens, if_neg hcd]
  rw [storeArg_of_lt _ _ (by simp only [ARGS_LIMIT]; omega)]
  simp only
  rw [parseLoop_plain _ rest.length rest _ (Nat.le_refl _) hrest hin hout rfl rfl
    (by simp only [pushArg]; omega)]
  have hpush := pushAll_map_some (withoutRedirs rest) [first]
  simp only [List.map_cons, List.map_nil, List.length_singleton, List.singleton_append] at hpush
  simp [pushArg, arraySet, hpush, Nat.add_comm]

/-- C1, at the line `echo hi > out.txt`: `args` is `[echo, hi]`, the output file
is `out.txt` and there is no input file. -/
theorem parseCommand_plain_redirects_witness :
    parseCommand "echo hi > out.txt".toList (init 1234) =
      some ({ init 1234 with
                args := [some "echo".toList, some "hi".toList]
                argSize := 2
                inputFile := none
                outputFile := some "out.txt".toList
                background := false },
            .executeCommand) :=
  parseCommand_plain_redirects "echo hi > out.txt".toList (init 1234) "echo".toList
    [ "hi".toList, ['>'], "out.txt".toList ] (by decide) (by decide) (by decide) (by decide)
    (by decide) (by decide) (by decide) (by decide) (by decide) (by decide) (by decide)

set_option maxRecDepth 8000 in
/-- C1 as stated fails when the operator is the first token: on `< in.txt cat`,
a line of plain tokens apart from one `<` followed by the plain token `in.txt`,
the first token is stored in `args` like any command word, so `args` is
`[<, in.txt, cat]` and no input file is set. -/
theorem parseCommand_leading_redirect :
    tokenize "< in.txt cat".toList = [ ['<'], "in.txt".toList, "cat".toList ] ∧
    plainWithRedirs (tokenize "< in.txt cat".toList) = true ∧
    (tokenize "< in.txt cat".toList).count ['<'] ≤ 1 ∧
    (tokenize "< in.txt cat".toList).count ['>'] ≤ 1 ∧
    (tokenize "< in.txt cat".toList).head? ≠ some ['c', 'd'] ∧
    redirTarget ['<'] (tokenize "< in.txt cat".toList) = some "in.txt".toList ∧
    withoutRedirs (tokenize "< in.txt cat".toList) = [ "cat".toList ] ∧
    parseCommand "< in.txt cat".toList (init 1234) =
      some ({ init 1234 with
                args := [some ['<'], some "in.txt".toList, some "cat".toList]
                argSize := 3
                inputFile := none },
            .executeCommand) := by
  decide

/-! ## The foreground-only toggle -/

theorem parseLoop_drop_amp (cdArg : Bool) :
    ∀ (toks : List CStr) (c : command), c.backgroundOff = true →
      parseLoop cdArg true (toks ++ [['&']]) c = parseLoop cdArg true toks c := by
  intro toks
  induction toks with
  | nil =>
    intro c hoff
    rw [List.nil_append, parseLoop_cons]
    simp [hoff, show hasMarker ['&'] = false by decide]
  | cons t toks ih =>
    intro c hoff
    have hstore : ∀ (d : command) (x : CStr), d.backgroundOff = true →
        (storeArg d x).bind (parseLoop cdArg true (toks ++ [['&']])) =
          (storeArg d x).bind (parseLoop cdArg true toks) := by
      intro d x hd
      cases hs : storeArg d x with
      | none => rfl
      | some stored =>
        obtain ⟨_, rfl⟩ := storeArg_eq_some _ _ _ hs
        exact ih _ (by simpa [pushArg] using hd)
    simp only [List.cons_append]
    rw [parseLoop_cons, parseLoop_cons]
    split
    · cases varExp c.shellPid t with
      | none => rfl
      | some newToken => exact hstore _ _ hoff
    · split
      · exact ih _ hoff
      · split
        · exact ih _ hoff
        · split
          · exact ih _ hoff
          · split
            · exact ih _ hoff
            · split
              · exact ih _ hoff
              · split
                · exact ih _ hoff
                · exact hstore _ _ hoff

theorem parseLoop_background_off (cdArg bgArg : Bool) :
    ∀ (toks : List CStr) (c : command) (r : command × ParseAction), c.backgroundOff = true →
      parseLoop cdArg bgArg toks c = some r → r.1.background = c.background := by
  intro toks
  induction toks with
  | nil =>
    intro c r _ hr
    unfold parseLoop at hr
    split at hr <;> simp only [Option.some.injEq] at hr <;> rw [← hr]
  | cons t toks ih =>
    intro c r hoff hr
    have hstore : ∀ (d : command) (x : CStr), d.backgroundOff = true →
        d.background = c.background →
        (storeArg d x).bind (parseLoop cdArg bgArg toks) = some r →
        r.1.background = c.background := by
      intro d x hd hbg h
      cases hs : storeArg d x with
      | none => rw [hs] at h; simp at h
      | some stored =>
        rw [hs] at h
        obtain ⟨_, rfl⟩ := storeArg_eq_some _ _ _ hs
        rw [ih _ r (by simpa [pushArg] using hd) h]
        simpa [pushArg] using hbg
    rw [parseLoop_cons] at hr
    split at hr
    · cases hv : varExp c.shellPid t with
      | none => rw [hv] at hr; simp at hr
      | some newToken =>
        rw [hv] at hr
        simp only [Option.some_bind] at hr
        exact hstore { c with argExp := c.argSize } newToken hoff rfl hr
    · split at hr
      · have h := ih _ r (by exact hoff) hr
        exact h
      · split at hr
        · have h := ih _ r (by exact hoff) hr
          exact h
        · split at hr
          · rename_i h
            rw [hoff] at h
            simp at h
          · split at hr
            · have h := ih _ r (by exact hoff) hr
              exact h
            · split at hr
              · have h := ih _ r (by exact hoff) hr
                exact h
              · split at hr
                · have h := ih _ r (by exact hoff) hr
                  exact h
                · exact hstore c t hoff rfl hr

theorem trimLine_getLast (raw : CStr) : (trimLine raw).getLast? ≠ some ' ' := by
  unfold trimLine
  rw [List.getLast?_reverse]
  exact skipSpaces_head _

theorem parseLoop_no_amp (cdArg : Bool) (k : Nat) :
    ∀ (toks : List CStr) (c : command) (r : command × ParseAction), c.backgroundOff = true →
      (∀ i, k ≤ i → arrayGet c.args i ≠ some ['&']) →
      parseLoop cdArg true toks c = some r →
      ∀ i, k ≤ i → arrayGet r.1.args i ≠ some ['&'] := by
  intro toks
  induction toks with
  | nil =>
    intro c r _ hc hr
    unfold parseLoop at hr
    split at hr <;> simp only [Option.some.injEq] at hr <;> rw [← hr] <;> exact hc
  | cons t toks ih =>
    intro c r hoff hc hr
    have hstore : ∀ (d : command) (x : CStr), d.backgroundOff = true → d.args = c.args →
        x ≠ ['&'] → (storeArg d x).bind (parseLoop cdArg true toks) = some r →
        ∀ i, k ≤ i → arrayGet r.1.args i ≠ some ['&'] := by
      intro d x hd hargs hx h
      cases hs : storeArg d x with
      | none => rw [hs] at h; simp at h
      | some stored =>
        rw [hs] at h
        obtain ⟨_, rfl⟩ := storeArg_eq_some _ _ _ hs
        refine ih _ r (by simpa [pushArg] using hd) ?_ h
        intro i hi
        simp only [pushArg, arrayGet_arraySet, hargs]
        split
        · simpa using hx
        · exact hc i hi
    rw [parseLoop_cons] at hr
    split at hr
    · rename_i hm
      cases hv : varExp c.shellPid t with
      | none => rw [hv] at hr; simp at hr
      | some newToken =>
        rw [hv] at hr
        simp only [Option.some_bind] at hr
        exact hstore { c with argExp := c.argSize } newToken hoff rfl
          (varExp_ne_amp _ _ _ hm hv) hr
    · split at hr
      · exact ih _ r (by exact hoff) (by exact hc) hr
      · split at hr
        · exact ih _ r (by exact hoff) (by exact hc) hr
        · split at hr
          · exact ih _ r (by exact hoff) (by exact hc) hr
          · split at hr
            · exact ih _ r (by exact hoff) (by exact hc) hr
            · rename_i hamp
              have hne : t ≠ ['&'] := by
                intro e
                exact hamp ⟨e, hoff, rfl⟩
              split at hr
              · exact ih _ r (by exact hoff) (by exact hc) hr
              · split at hr
                · exact ih _ r (by exact hoff) (by exact hc) hr
                · exact hstore c t hoff rfl hne hr

/-- C5. With the foreground-only toggle on and the per-line fields reset, for
every line read by `main` whose tokens are at least two and end with the token
`&`: `parseCommand` does exactly what it does on the tokens before that `&`
(the `&` is dropped), the background flag of the resulting command is unset and
no entry of `args` after `args[0]` is `&`; and whatever the line, the background
flag is unset after parsing. -/
theorem parseCommand_foreground_only (raw : CStr) (inputs : command)
    (first : CStr) (mid : List CStr)
    (hoff : inputs.backgroundOff = true)
    (hreset : inputs.background = false ∧ inputs.args = [] ∧ inputs.argSize = 0)
    (htok : tokenize (trimLine raw) = first :: (mid ++ [['&']])) :
    parseCommand (trimLine raw) inputs = parseTokens true (first :: mid) inputs ∧
    (∀ r, parseCommand (trimLine raw) inputs = some r →
      r.1.background = false ∧ ∀ i, 1 ≤ i → arrayGet r.1.args i ≠ some ['&']) ∧
    (∀ (line : CStr) r, parseCommand line inputs = some r → r.1.background = false) := by
  obtain ⟨hbg, hargs, hsize⟩ := hreset
  have hall : ∀ (line : CStr) r, parseCommand line inputs = some r → r.1.background = false := by
    intro line r hr
    unfold parseCommand parseTokens at hr
    split at hr
    · simp at hr
    · split at hr
      · rw [parseLoop_background_off _ _ _ _ r hoff hr, hbg]
      · cases hs : storeArg inputs _ with
        | none => rw [hs] at hr; simp at hr
        | some stored =>
          rw [hs] at hr
          obtain ⟨_, rfl⟩ := storeArg_eq_some _ _ _ hs
          rw [parseLoop_background_off _ _ _ _ r (by simpa [pushArg] using hoff) hr]
          simpa [pushArg] using hbg
  have hamp : endsWithAmp (trimLine raw) = true := by
    cases hlast : (trimLine raw).getLast? with
    | none =>
      have hnil : trimLine raw = [] := by simpa using hlast
      rw [hnil] at htok
      simp [tokenize, strtokAll, strtok_r, skipSpaces] at htok
    | some c =>
      have hc : c ≠ ' ' := by
        intro e; subst e; exact trimLine_getLast raw hlast
      obtain ⟨ts, t, hts, ht⟩ := tokenize_getLast (trimLine raw) c hlast hc
      rw [htok] at hts
      have h1 : first :: (mid ++ [['&']]) = (first :: mid) ++ [['&']] := by simp
      rw [h1] at hts
      have h2 := List.append_inj' hts (by simp)
      have h3 : t = ['&'] := by simpa using h2.2.symm
      subst h3
      simp at ht
      simp [endsWithAmp, hlast, ← ht]
  have hdrop : parseCommand (trimLine raw) inputs = parseTokens true (first :: mid) inputs := by
    unfold parseCommand
    rw [hamp, htok]
    unfold parseTokens
    simp only
    split
    · rw [parseLoop_drop_amp _ _ _ hoff]
    · cases hs : storeArg inputs first with
      | none => rfl
      | some stored =>
        obtain ⟨_, rfl⟩ := storeArg_eq_some _ _ _ hs
        simp only
        rw [parseLoop_drop_amp _ _ _ (by simpa [pushArg] using hoff)]
  refine ⟨hdrop, ?_, hall⟩
  intro r hr
  refine ⟨hall _ r hr, ?_⟩
  rw [hdrop] at hr
  unfold parseTokens at hr
  simp only at hr
  split at hr
  · refine parseLoop_no_amp _ 1 _ _ r hoff ?_ hr
    intro i _
    simp [hargs, arrayGet]
  · cases hs : storeArg inputs first with
    | none => rw [hs] at hr; simp at hr
    | some stored =>
      rw [hs] at hr
      obtain ⟨_, rfl⟩ := storeArg_eq_some _ _ _ hs
      refine parseLoop_no_amp _ 1 _ _ r (by simpa [pushArg] using hoff) ?_ hr
      intro i hi
      simp only [pushArg, arrayGet_arraySet, hargs, hsize]
      rw [if_neg (by omega)]
      simp [arrayGet]

set_option maxRecDepth 8000 in
/-- C5, at the line `sleep 5 &` with the toggle on: `executeCommand` is called
with `args = [sleep, 5]` and the background flag unset. -/
theorem parseCommand_foreground_only_witness :
    parseCommand (trimLine "sleep 5 &\n".toList) { init 1234 with backgroundOff := true } =
      some ({ init 1234 with
                backgroundOff := true
                args := [some "sleep".toList, some ['5']]
                argSize := 2
                background := false },
            .executeCommand) := by
  rw [(parseCommand_foreground_only "sleep 5 &\n".toList
    { init 1234 with backgroundOff := true } "sleep".toList [ ['5'] ]
    (by decide) (by decide) (by decide)).1]
  decide

/-! ## Lines the parser does not handle as the specification words it -/

set_option maxRecDepth 8000 in
/-- C3 on the code. On `echo$$ hi` the first token holds `$$` and is stored as
it is, `echo$$`, not as `varExp` of it, `echo1234`. On `cat < in$$` the token
after `<` holds `$$`: its expansion `in1234` is stored as an argument, no input
path is set and the redirection stays pending. -/
theorem parseCommand_marker_positions :
    hasMarker "echo$$".toList = true ∧
    varExp 1234 "echo$$".toList = some "echo1234".toList ∧
    parseCommand "echo$$ hi".toList (init 1234) =
      some ({ init 1234 with
                args := [some "echo$$".toList, some "hi".toList]
                argSize := 2 },
            .executeCommand) ∧
    hasMarker "in$$".toList = true ∧
    varExp 1234 "in$$".toList = some "in1234".toList ∧
    parseCommand "cat < in$$".toList (init 1234) =
      some ({ init 1234 with
                args := [some "cat".toList, some "in1234".toList]
                argSize := 2
                argExp := 1
                inputFile := none
                inputRe := true },
            .executeCommand) := by
  decide

set_option maxRecDepth 8000 in
/-- C4 on the code. On `ls & foo&`, with the toggle off, the final token is
`foo&`, not `&`, and yet the background flag is set: the line ends in the
character `&`, so the `&` in the middle of the line is taken as the marker. -/
theorem parseCommand_middle_amp :
    tokenize "ls & foo&".toList = [ "ls".toList, ['&'], "foo&".toList ] ∧
    (init 1234).backgroundOff = false ∧
    parseCommand "ls & foo&".toList (init 1234) =
      some ({ init 1234 with
                args := [some "ls".toList, some "foo&".toList]
                argSize := 2
                background := true },
            .executeCommand) := by
  decide

set_option maxRecDepth 8000 in
/-- C10 on the code. On ` cd` (a space, then `cd`) the first token is `cd` and
there is no second token: `parseCommand` calls `chdir(args[argSize - 1])` with
`argSize = 0`, a read at index `-1`, outside `args`, and not `HOME`. On `cd a b`
the call is applied to the last token `b`, not to the second token `a`. -/
theorem parseCommand_cd_argument :
    tokenize " cd".toList = [ ['c', 'd'] ] ∧
    parseCommand " cd".toList (init 1234) =
      some (init 1234, .chdir (.outOfBounds (-1))) ∧
    parseCommand "cd a b".toList (init 1234) =
      some ({ init 1234 with args := [some ['a'], some ['b']], argSize := 2 },
            .chdir (.value (some ['b']))) := by
  decide

/-! ## The last foreground disposition -/

theorem fmtInt_natCast (n : Nat) : fmtInt (n : Int) = Nat.toDigits 10 n := by
  unfold fmtInt
  rw [if_neg (by omega)]
  simp

theorem mainBody_status (os : Answers) (home : Option CStr) (inputs : command) :
    mainBody os home "status\n".toList inputs =
      { trace := [.printf (statusBuiltin inputs)], ending := .returned (resetLine inputs) } ∧
    mainBody os home "status &\n".toList inputs =
      { trace := [.printf (statusBuiltin inputs)], ending := .returned (resetLine inputs) } := by
  have h1 : branchOf (trimLine "status\n".toList) = .statusBuiltin := by decide
  have h2 : branchOf (trimLine "status &\n".toList) = .statusBuiltin := by decide
  constructor
  · unfold mainBody
    rw [h1]
  · unfold mainBody
    rw [h2]

/-- C6. In the shell (the parent of a successful `fork`), for a foreground
command: when the status `waitpid` stored is a normal exit, `executeCommand`
returns with `signalTerm` unset and `exitStatus` the exit code `N`, which is at
most 255, and the `status` branch, run on that state after the per-line reset,
prints `exit value N` and a newline; when the status is a termination by a
signal `S`, it returns with `signalTerm` set and `exitStatus = S`, and `status`
prints `terminated by signal S` and a newline. Every `N` from 0 to 255 is the
exit code of a status. In the main loop: the lines `status` and `status &` take
the status branch, whose only call is the `printf` of that text; and when an
iteration of the loop has run such a foreground command from any line, the next
iteration on the line `status` makes, after the scan of the background table
and the prompt, one more call only, the `printf` of `exit value N` resp.
`terminated by signal S` and a newline. -/
theorem status_after_foreground_wait (os : Answers) (inputs : command)
    (hfork : os.fork ≠ -1 ∧ os.fork ≠ 0) (hfg : inputs.background = false) :
    (WIFEXITED os.childExitStatus = true →
      (executeCommand os inputs).ending =
        .returned { inputs with
          signalTerm := false, exitStatus := WEXITSTATUS os.childExitStatus } ∧
      WEXITSTATUS os.childExitStatus ≤ 255 ∧
      statusBuiltin (resetLine { inputs with
          signalTerm := false, exitStatus := WEXITSTATUS os.childExitStatus }) =
        "exit value ".toList ++ Nat.toDigits 10 (WEXITSTATUS os.childExitStatus) ++ ['\n']) ∧
    (WIFSIGNALED os.childExitStatus = true →
      (executeCommand os inputs).ending =
        .returned { inputs with
          signalTerm := true, exitStatus := WTERMSIG os.childExitStatus } ∧
      statusBuiltin (resetLine { inputs with
          signalTerm := true, exitStatus := WTERMSIG os.childExitStatus }) =
        "terminated by signal ".toList ++ Nat.toDigits 10 (WTERMSIG os.childExitStatus) ++
          ['\n']) ∧
    (∀ N : Nat, N ≤ 255 → WIFEXITED (256 * N) = true ∧ WEXITSTATUS (256 * N) = N) ∧
    (∀ (os2 : Answers) (home2 : Option CStr) (state : command),
      branchOf (trimLine "status\n".toList) = .statusBuiltin ∧
      branchOf (trimLine "status &\n".toList) = .statusBuiltin ∧
      mainBody os2 home2 "status\n".toList state =
        { trace := [.printf (statusBuiltin state)], ending := .returned (resetLine state) } ∧
      mainBody os2 home2 "status &\n".toList state =
        { trace := [.printf (statusBuiltin state)], ending := .returned (resetLine state) }) ∧
    (∀ (home : Option CStr) (raw : CStr) (before : command),
      branchOf (trimLine raw) = .parse →
      parseCommand (trimLine raw) before = some (inputs, .executeCommand) →
      (WIFEXITED os.childExitStatus = true →
        ∀ (probe : Nat → Int → Int × Nat) (os2 : Answers) (home2 : Option CStr),
          (mainIteration probe os2 home2 (some "status\n".toList)
              (afterRun (mainBody os home raw before) before)).trace =
            (pollBackground probe inputs.backgroundPids).2 ++
              [.printf ": ".toList,
                .printf ("exit value ".toList ++
                  Nat.toDigits 10 (WEXITSTATUS os.childExitStatus) ++ ['\n'])]) ∧
      (WIFSIGNALED os.childExitStatus = true →
        ∀ (probe : Nat → Int → Int × Nat) (os2 : Answers) (home2 : Option CStr),
          (mainIteration probe os2 home2 (some "status\n".toList)
              (afterRun (mainBody os home raw before) before)).trace =
            (pollBackground probe inputs.backgroundPids).2 ++
              [.printf ": ".toList,
                .printf ("terminated by signal ".toList ++
                  Nat.toDigits 10 (WTERMSIG os.childExitStatus) ++ ['\n'])])) := by
  obtain ⟨hf1, hf0⟩ := hfork
  have hsig_ex : WIFSIGNALED os.childExitStatus = true → WIFEXITED os.childExitStatus = false := by
    intro hsig
    simp only [WIFSIGNALED, Bool.and_eq_true, decide_eq_true_eq] at hsig
    simp only [WIFEXITED, beq_eq_false_iff_ne, ne_eq]
    omega
  have hexit : WIFEXITED os.childExitStatus = true →
      executeCommand os inputs =
        { trace := [.fork, .waitpid os.fork false, .sigaction .SIGINT .ignoreAction],
          ending := .returned { inputs with
            signalTerm := false, exitStatus := WEXITSTATUS os.childExitStatus } } := by
    intro hex
    simp [executeCommand, hf1, hf0, parentBranch, hfg, hex]
  have hkill : WIFSIGNALED os.childExitStatus = true →
      executeCommand os inputs =
        { trace := [.fork, .waitpid os.fork false,
            .printf ("terminated by signal ".toList ++ fmtInt (WTERMSIG os.childExitStatus) ++
              "\n".toList),
            .sigaction .SIGINT .ignoreAction],
          ending := .returned { inputs with
            signalTerm := true, exitStatus := WTERMSIG os.childExitStatus } } := by
    intro hsig
    simp [executeCommand, hf1, hf0, parentBranch, hfg, hsig_ex hsig, hsig]
  refine ⟨?_, ?_, ?_, ?_, ?_⟩
  · intro hex
    refine ⟨?_, ?_, ?_⟩
    · rw [hexit hex]
    · unfold WEXITSTATUS
      omega
    · simp [statusBuiltin, resetLine, fmtInt_natCast]
  · intro hsig
    refine ⟨?_, ?_⟩
    · rw [hkill hsig]
    · simp [statusBuiltin, resetLine, fmtInt_natCast]
  · intro N hN
    refine ⟨?_, ?_⟩
    · simp only [WIFEXITED, beq_iff_eq]
      omega
    · unfold WEXITSTATUS
      omega
  · intro os2 home2 state
    exact ⟨by decide, by decide, (mainBody_status os2 home2 state).1,
      (mainBody_status os2 home2 state).2⟩
  · intro home raw before hbranch hparse
    refine ⟨?_, ?_⟩
    · intro hex probe os2 home2
      have hafter : afterRun (mainBody os home raw before) before =
          resetLine { inputs with
            signalTerm := false, exitStatus := WEXITSTATUS os.childExitStatus } := by
        simp only [afterRun, mainBody, hbranch, hparse, hexit hex]
      rw [hafter]
      simp only [mainIteration, (mainBody_status _ _ _).1]
      simp [statusBuiltin, resetLine, fmtInt_natCast]
    · intro hsig probe os2 home2
      have hafter : afterRun (mainBody os home raw before) before =
          resetLine { inputs with
            signalTerm := true, exitStatus := WTERMSIG os.childExitStatus } := by
        simp only [afterRun, mainBody, hbranch, hparse, hkill hsig]
      rw [hafter]
      simp only [mainIteration, (mainBody_status _ _ _).1]
      simp [statusBuiltin, resetLine, fmtInt_natCast]

set_option maxRecDepth 20000 in
/-- C6, at the line `ls` run in the foreground from the initial state, when the
child exits with code 3 and when it is killed by signal 2: the iteration on the
next line `status` prints the prompt and then `exit value 3`, resp. `terminated
by signal 2`. -/
theorem status_after_foreground_wait_witness :
    (mainIteration stillRunning (allSucceed 4243 0) none (some "status\n".toList)
        (afterRun (mainBody (allSucceed 4242 768) none "ls\n".toList (init 1234))
          (init 1234))).trace =
      [.printf ": ".toList, .printf "exit value 3\n".toList] ∧
    (mainIteration stillRunning (allSucceed 4243 0) none (some "status\n".toList)
        (afterRun (mainBody (allSucceed 4242 2) none "ls\n".toList (init 1234))
          (init 1234))).trace =
      [.printf ": ".toList, .printf "terminated by signal 2\n".toList] := by
  refine ⟨?_, ?_⟩
  · rw [((status_after_foreground_wait (allSucceed 4242 768)
      { init 1234 with args := [some "ls".toList], argSize := 1 } (by decide) (by decide)).2.2.2.2
      none "ls\n".toList (init 1234) (by decide) (by decide)).1 (by decide)
      stillRunning (allSucceed 4243 0) none]
    decide
  · rw [((status_after_foreground_wait (allSucceed 4242 2)
      { init 1234 with args := [some "ls".toList], argSize := 1 } (by decide) (by decide)).2.2.2.2
      none "ls\n".toList (init 1234) (by decide) (by decide)).2 (by decide)
      stillRunning (allSucceed 4243 0) none]
    decide

/-! ## Redirections in the execution engine -/

set_option maxRecDepth 8000 in
/-- C7 on the code. The line `cat < in.txt > out.txt &` is parsed into a
background command with both explicit paths, and for such a command both
directions open the null device, not the explicit paths: in the child of the
polling build the two `open` calls are `open("/dev/null", O_RDONLY)` and
`open("/dev/null", O_WRONLY)`. -/
theorem executeCommand_background_redirect :
    parseCommand "cat < in.txt > out.txt &".toList (init 1234) =
      some ({ init 1234 with
                args := [some "cat".toList]
                argSize := 1
                inputFile := some "in.txt".toList
                outputFile := some "out.txt".toList
                background := true },
            .executeCommand) ∧
    sourceOpen (some "in.txt".toList) true =
      some { path := some "/dev/null".toList, flags := [.O_RDONLY], mode := none } ∧
    targetOpen (some "out.txt".toList) true =
      some { path := some "/dev/null".toList, flags := [.O_WRONLY], mode := none } ∧
    executeCommand (allSucceed 0 0)
        { init 1234 with
            args := [some "cat".toList]
            argSize := 1
            inputFile := some "in.txt".toList
            outputFile := some "out.txt".toList
            background := true } =
      { trace :=
          [ .fork,
            .openFile { path := some "/dev/null".toList, flags := [.O_RDONLY], mode := none },
            .dup2 4 0,
            .openFile { path := some "/dev/null".toList, flags := [.O_WRONLY], mode := none },
            .dup2 6 1,
            .sigaction .SIGINT .defaultAction,
            .execvp (some "cat".toList) [some "cat".toList] ],
        ending := .replaced } := by
  decide

end MainArray

namespace MainSignal

/-- C8. Signal-driven build: for every foreground command with an explicit
input path whose `open` fails, `executeCommand` makes three calls only, `dup(0)`,
the read-only `open` of the path and the `printf` of `cannot open <path> for
input` with a newline; it does not call `fork`; and it returns to the main loop
with `signalTerm` unset and `exitStatus = 1`. -/
theorem executeCommand_input_open_fails (os : Answers) (inputs : command) (path : CStr)
    (hfg : inputs.background = false) (hin : inputs.inputFile = some path)
    (hopen : os.openSource = -1) :
    executeCommand os inputs =
      { trace :=
          [ .dup 0,
            .openFile { path := some path, flags := [.O_RDONLY], mode := none },
            .printf ("cannot open ".toList ++ path ++ " for input\n".toList) ],
        ending := .returned { inputs with signalTerm := false, exitStatus := 1 } } ∧
    Event.fork ∉ (executeCommand os inputs).trace := by
  have h : executeCommand os inputs =
      { trace :=
          [ .dup 0,
            .openFile { path := some path, flags := [.O_RDONLY], mode := none },
            .printf ("cannot open ".toList ++ path ++ " for input\n".toList) ],
        ending := .returned { inputs with signalTerm := false, exitStatus := 1 } } := by
    simp [executeCommand, sourceOpen, hfg, hin, hopen, fmtStr]
  refine ⟨h, ?_⟩
  rw [h]
  simp

/-- C8, at `cat < nofile` when `nofile` cannot be opened. -/
theorem executeCommand_input_open_fails_witness :
    executeCommand { allSucceed 4242 0 with openSource := -1 }
        { init 1234 with
            args := [some "cat".toList], argSize := 1, inputFile := some "nofile".toList } =
      { trace :=
          [ .dup 0,
            .openFile { path := some "nofile".toList, flags := [.O_RDONLY], mode := none },
            .printf "cannot open nofile for input\n".toList ],
        ending := .returned
          { init 1234 with
              args := [some "cat".toList], argSize := 1, inputFile := some "nofile".toList,
              signalTerm := false, exitStatus := 1 } } :=
  (executeCommand_input_open_fails { allSucceed 4242 0 with openSource := -1 }
    { init 1234 with
        args := [some "cat".toList], argSize := 1, inputFile := some "nofile".toList }
    "nofile".toList (by decide) (by decide) (by decide)).1

/-- C9 on the code. Signal-driven build, `ls > /nodir/out` when the path cannot
be opened: `executeCommand` calls `dup(1)`, the `open`, `perror`, and then
`exit(1)` in the shell itself; it does not return to the main loop. -/
theorem executeCommand_output_open_fails :
    executeCommand { allSucceed 4242 0 with openTarget := -1 }
        { init 1234 with
            args := [some "ls".toList], argSize := 1, outputFile := some "/nodir/out".toList } =
      { trace :=
          [ .dup 1,
            .openFile { path := some "/nodir/out".toList,
                        flags := [.O_WRONLY, .O_CREAT, .O_TRUNC], mode := some 0o644 },
            .perror "target open() error!".toList ],
        ending := .exited 1 } := by
  decide

end MainSignal

namespace MainArray

/-! ## Lines that reach the execution engine -/

end MainArray

/-! ## Blank lines and comments -/

theorem skipSpaces_all_spaces (l : CStr) (h : ∀ ch ∈ l, ch = ' ') : skipSpaces l = [] := by
  induction l with
  | nil => rfl
  | cons x l ih =>
    have hx : x = ' ' := h x (List.mem_cons_self _ _)
    have hl : ∀ ch ∈ l, ch = ' ' := fun ch hch => h ch (List.mem_cons_of_mem _ hch)
    simp [skipSpaces, hx, ih hl]

theorem skipSpaces_append_singleton (l : CStr) (x : Char) (hx : x ≠ ' ') :
    ∃ l', skipSpaces (l ++ [x]) = l' ++ [x] := by
  induction l with
  | nil => exact ⟨[], by simp [skipSpaces, hx]⟩
  | cons y l ih =>
    simp only [List.cons_append, skipSpaces]
    split
    · exact ih
    · exact ⟨y :: l, rfl⟩

namespace MainArray

theorem trimLine_spaces (line : CStr) (c0 : Char) (h : ∀ ch ∈ line, ch = ' ') :
    trimLine (line ++ [c0]) = [] := by
  unfold trimLine
  rw [List.dropLast_concat]
  rw [skipSpaces_all_spaces _ (by simpa using h)]
  rfl

theorem trimLine_hash (rest : CStr) (c0 : Char) :
    ∃ l, trimLine ('#' :: rest ++ [c0]) = '#' :: l := by
  unfold trimLine
  have h1 : ('#' :: rest ++ [c0]).dropLast = '#' :: rest := by
    rw [List.dropLast_concat]
  rw [h1, List.reverse_cons]
  obtain ⟨l', hl'⟩ := skipSpaces_append_singleton rest.reverse '#' (by decide)
  rw [hl']
  exact ⟨l'.reverse, by simp⟩

/-- C12, as the code has it. For every line read that consists only of space
characters (or is empty) or whose first character is `#`, the body of the main
loop takes the blank or the comment branch, so that neither `parseCommand` nor
`executeCommand` is called; it prints nothing, except one newline for the
comment; and it ends with the per-line reset, which leaves the last exit
status, the signal flag, the toggle, the background table and its write index,
the pending-redirection flags and the pid as they were, and leaves the whole
state as it was exactly when the per-line fields already had their reset
values. -/
theorem mainBody_blank_or_comment (os : Answers) (home : Option CStr) (line : CStr) (c0 : Char)
    (inputs : command)
    (hline : (∀ ch ∈ line, ch = ' ') ∨ line.head? = some '#') :
    (branchOf (trimLine (line ++ [c0])) = .blank ∨
      branchOf (trimLine (line ++ [c0])) = .comment) ∧
    (mainBody os home (line ++ [c0]) inputs).trace =
      (if line.head? = some '#' then [.printf ['\n']] else []) ∧
    (mainBody os home (line ++ [c0]) inputs).ending = .returned (resetLine inputs) ∧
    ((resetLine inputs).exitStatus = inputs.exitStatus ∧
      (resetLine inputs).signalTerm = inputs.signalTerm ∧
      (resetLine inputs).backgroundOff = inputs.backgroundOff ∧
      (resetLine inputs).backgroundPids = inputs.backgroundPids ∧
      (resetLine inputs).bgPidSize = inputs.bgPidSize ∧
      (resetLine inputs).inputRe = inputs.inputRe ∧
      (resetLine inputs).outputRe = inputs.outputRe ∧
      (resetLine inputs).shellPid = inputs.shellPid) ∧
    (resetLine inputs = inputs ↔
      inputs.argSize = 0 ∧ inputs.args = [] ∧ inputs.argExp = 0 ∧ inputs.background = false ∧
        inputs.inputFile = none ∧ inputs.outputFile = none) := by
  refine ⟨?_, ?_, ?_, ⟨rfl, rfl, rfl, rfl, rfl, rfl, rfl, rfl⟩, ?_⟩
  · rcases hline with h | h
    · left
      rw [trimLine_spaces line c0 h]
      rfl
    · right
      cases line with
      | nil => simp at h
      | cons x rest =>
        simp only [List.head?_cons, Option.some.injEq] at h
        subst h
        obtain ⟨l, hl⟩ := trimLine_hash rest c0
        rw [hl]
        simp [branchOf, charAt]
  · rcases hline with h | h
    · have hne : line.head? ≠ some '#' := by
        cases line with
        | nil => simp
        | cons x rest =>
          have := h x (List.mem_cons_self _ _)
          subst this
          simp
      rw [if_neg hne]
      unfold mainBody
      rw [trimLine_spaces line c0 h]
      rfl
    · rw [if_pos h]
      cases line with
      | nil => simp at h
      | cons x rest =>
        simp only [List.head?_cons, Option.some.injEq] at h
        subst h
        obtain ⟨l, hl⟩ := trimLine_hash rest c0
        unfold mainBody
        rw [hl]
        simp [branchOf, charAt]
  · rcases hline with h | h
    · unfold mainBody
      rw [trimLine_spaces line c0 h]
      rfl
    · cases line with
      | nil => simp at h
      | cons x rest =>
        simp only [List.head?_cons, Option.some.injEq] at h
        subst h
        obtain ⟨l, hl⟩ := trimLine_hash rest c0
        unfold mainBody
        rw [hl]
        simp [branchOf, charAt]
  · obtain ⟨args, argSize, argExp, background, exitStatus, signalTerm, shellPid, inputFile,
      inputRe, outputFile, outputRe, backgroundOff, backgroundPids, bgPidSize⟩ := inputs
    simp only [resetLine, command.mk.injEq]
    constructor
    · rintro ⟨h1, h2, h3, h4, -, -, -, h5, -, h6, -⟩
      exact ⟨h2.symm, h1.symm, h3.symm, h4.symm, h5.symm, h6.symm⟩
    · rintro ⟨h1, h2, h3, h4, h5, h6⟩
      simp [h1, h2, h3, h4, h5, h6]

end MainArray

/-! ## The length of an expansion -/

namespace MainArray

end MainArray

/-! ## The report written by the signal handler -/

theorem paddedDigits_msb (k n : Nat) (hn : n < 10 ^ (k + 1)) :
    Nat.digitChar (n / 10 ^ k) :: paddedDigits k (n % 10 ^ k) = paddedDigits (k + 1) n := by
  induction k generalizing n with
  | zero =>
    have : n % 10 = n := Nat.mod_eq_of_lt (by simpa using hn)
    simp [paddedDigits, this]
  | succ k ih =>
    have hdiv1 : n / 10 < 10 ^ (k + 1) := by
      rw [Nat.div_lt_iff_lt_mul (by decide)]
      rw [Nat.pow_succ] at hn
      exact hn
    have h1 : n % 10 ^ (k + 1) / 10 = n / 10 % 10 ^ k := by
      rw [Nat.pow_succ, Nat.mul_comm, Nat.mod_mul_right_div_self]
    have h2 : n % 10 ^ (k + 1) % 10 = n % 10 := by
      rw [Nat.pow_succ]
      exact Nat.mod_mul_left_mod n (10 ^ k) 10
    have h3 : n / 10 ^ (k + 1) = n / 10 / 10 ^ k := by
      rw [Nat.pow_succ, Nat.mul_comm, Nat.div_div_eq_div_mul]
    have hrec := ih (n / 10) hdiv1
    rw [paddedDigits, h1, h2, h3, ← List.cons_append, hrec]
    rfl

theorem digitChar_of_byte (d : Nat) (hd : d < 10) :
    Char.ofNat ((d + 48) % 256) = Nat.digitChar d := by
  interval_cases d <;> rfl

theorem bytesWritten_append (a b : List Event) :
    bytesWritten (a ++ b) = bytesWritten a ++ bytesWritten b := by
  induction a with
  | nil => rfl
  | cons e a ih =>
    cases e <;> simp [bytesWritten, ih]

theorem bytesWritten_digits (l : CStr) :
    bytesWritten (l.map (fun c => Event.write [c])) = l := by
  induction l with
  | nil => rfl
  | cons c l ih => simp [bytesWritten, ih]

namespace MainSignal

theorem digitLoop_padded :
    ∀ (k n fuel : Nat), n < 10 ^ (k + 1) → k + 2 ≤ fuel →
      digitLoop fuel n (10 ^ k) = (paddedDigits (k + 1) n).map (fun c => Event.write [c]) := by
  intro k
  induction k with
  | zero =>
    intro n fuel hn hf
    cases fuel with
    | zero => omega
    | succ f =>
      have hn' : n < 10 := by simpa using hn
      have hmod : n % 10 = n := Nat.mod_eq_of_lt hn'
      have htail : digitLoop f (n % 1) (1 / 10) = [] := by
        cases f <;> simp [digitLoop]
      simp [digitLoop, paddedDigits, htail, hmod, digitChar_of_byte n hn']
  | succ k ih =>
    intro n fuel hn hf
    cases fuel with
    | zero => omega
    | succ f =>
      have hpos : 0 < 10 ^ (k + 1) := Nat.pos_pow_of_pos _ (by decide)
      have hd : n / 10 ^ (k + 1) < 10 := by
        rw [Nat.div_lt_iff_lt_mul hpos]
        rw [Nat.pow_succ, Nat.mul_comm] at hn
        exact hn
      have hdiv : 10 ^ (k + 1) / 10 = 10 ^ k := by
        rw [Nat.pow_succ]
        exact Nat.mul_div_cancel _ (by decide)
      have hrec := ih (n % 10 ^ (k + 1)) f (Nat.mod_lt _ hpos) (by omega)
      rw [digitLoop, if_pos hpos, hdiv, hrec, digitChar_of_byte _ hd,
        ← paddedDigits_msb (k + 1) n hn]
      rfl

theorem scaleLoop_pow (n k : Nat) (hk : k ≤ 8) (hn : n < 10 ^ (k + 1))
    (hlow : k = 0 ∨ 10 ^ k ≤ n) :
    ∀ (fuel j : Nat), j ≤ k → k < j + fuel → scaleLoop n fuel (10 ^ j) = some (10 ^ k) := by
  intro fuel
  induction fuel with
  | zero => intro j h1 h2; omega
  | succ f ih =>
    intro j hj hf
    have hbound : 10 ^ j * 10 ≤ 10 ^ 9 := by
      rw [← Nat.pow_succ]
      exact Nat.pow_le_pow_right (by decide) (by omega)
    have hmax : ¬ INT_MAX < 10 ^ j * 10 := by
      unfold INT_MAX
      have : (10 : Nat) ^ 9 = 1000000000 := by norm_num
      omega
    rw [scaleLoop, if_neg hmax]
    have hpos : 0 < 10 ^ j * 10 := by
      have := Nat.pos_pow_of_pos j (show 0 < 10 by decide)
      omega
    by_cases hjk : j = k
    · subst hjk
      have h0 : n / (10 ^ j * 10) = 0 := by
        rw [Nat.div_eq_zero_iff hpos]
        rw [Nat.pow_succ] at hn
        exact hn
      simp [h0]
    · have hlt : j + 1 ≤ k := by omega
      have hle : 10 ^ (j + 1) ≤ n := by
        rcases hlow with h | h
        · omega
        · exact Nat.le_trans (Nat.pow_le_pow_right (by decide) hlt) h
      have hne : n / (10 ^ j * 10) ≠ 0 := by
        rw [Nat.pow_succ] at hle
        intro h
        rw [Nat.div_eq_zero_iff hpos] at h
        omega
      rw [if_pos hne, ← Nat.pow_succ]
      exact ih (j + 1) hlt (by omega)

theorem writeNumber_digits (n : Nat) (hn : n < 10 ^ 9) :
    writeNumber n = some ((Nat.toDigits 10 n).map (fun c => Event.write [c])) := by
  have hex : ∃ k, k ≤ 8 ∧ n < 10 ^ (k + 1) ∧ (k = 0 ∨ 10 ^ k ≤ n) := by
    by_cases h0 : n = 0
    · exact ⟨0, by omega, by subst h0; decide, Or.inl rfl⟩
    · refine ⟨Nat.log 10 n, ?_, Nat.lt_pow_succ_log_self (by decide) n,
        Or.inr (Nat.pow_log_le_self 10 h0)⟩
      have := Nat.log_lt_of_lt_pow h0 hn
      omega
  obtain ⟨k, hk, hlt, hlow⟩ := hex
  unfold writeNumber
  have hs := scaleLoop_pow n k hk hlt hlow 10 0 (by omega) (by omega)
  simp only [Nat.pow_zero] at hs
  rw [hs, toDigits_padded k n hlt hlow]
  simp only [Option.map_some']
  rw [digitLoop_padded k n 11 hlt (by omega)]

/-- C14. Signal-driven build: for every reaped child pid `p` with
`1 <= p < 10^9` and every status that is a normal exit with code `n` or a
termination by a signal `s`, `handleSIGCHLD` is defined and the bytes it writes
are `background pid `, the decimal digits of `p`, ` is done: exit value ` and
the decimal digits of `n` (resp. ` is done: terminated by signal ` and the
digits of `s`), then a newline; this is the text the `printf` of the polling
build's scan prints for the same pid and status. -/
theorem handleSIGCHLD_report (childPid : Int) (childStatus : Nat)
    (hpid : 1 ≤ childPid ∧ childPid < 10 ^ 9)
    (hst : WIFEXITED childStatus = true ∨ WIFSIGNALED childStatus = true) :
    (handleSIGCHLD childPid childStatus).map bytesWritten =
      some (if WIFEXITED childStatus then
          "background pid ".toList ++ Nat.toDigits 10 childPid.toNat ++
            " is done: exit value ".toList ++ Nat.toDigits 10 (WEXITSTATUS childStatus) ++ ['\n']
        else
          "background pid ".toList ++ Nat.toDigits 10 childPid.toNat ++
            " is done: terminated by signal ".toList ++
            Nat.toDigits 10 (WTERMSIG childStatus) ++ ['\n']) ∧
    MainArray.reportLine childPid childStatus =
      [.printf (if WIFEXITED childStatus then
          "background pid ".toList ++ Nat.toDigits 10 childPid.toNat ++
            " is done: exit value ".toList ++ Nat.toDigits 10 (WEXITSTATUS childStatus) ++ ['\n']
        else
          "background pid ".toList ++ Nat.toDigits 10 childPid.toNat ++
            " is done: terminated by signal ".toList ++
            Nat.toDigits 10 (WTERMSIG childStatus) ++ ['\n'])] := by
  obtain ⟨hp1, hp2⟩ := hpid
  have hpos : 0 < childPid := by omega
  have hpn : childPid.toNat < 10 ^ 9 := by omega
  have hfmt : fmtInt childPid = Nat.toDigits 10 childPid.toNat := by
    unfold fmtInt
    rw [if_neg (by omega)]
  have hwp := writeNumber_digits childPid.toNat hpn
  have hexit : WEXITSTATUS childStatus < 10 ^ 9 := by
    unfold WEXITSTATUS
    omega
  have hsig : WTERMSIG childStatus < 10 ^ 9 := by
    unfold WTERMSIG
    omega
  have hwe := writeNumber_digits _ hexit
  have hws := writeNumber_digits _ hsig
  by_cases hex : WIFEXITED childStatus = true
  · refine ⟨?_, ?_⟩
    · simp only [handleSIGCHLD, if_pos hpos, hex, if_true, hwp, hwe, Option.bind_eq_bind,
        Option.some_bind, Option.map_some', Option.pure_def]
      simp [bytesWritten_append, bytesWritten_digits, bytesWritten, writeBytes]
    · simp [MainArray.reportLine, hex, hfmt, MainArray.fmtInt_natCast]
  · have hsg : WIFSIGNALED childStatus = true := by
      rcases hst with h | h
      · exact absurd h hex
      · exact h
    refine ⟨?_, ?_⟩
    · simp only [handleSIGCHLD, if_pos hpos, hex, hsg, if_true, hwp, hws, Option.bind_eq_bind,
        Option.some_bind, Option.map_some', Option.pure_def]
      simp [bytesWritten_append, bytesWritten_digits, bytesWritten, writeBytes]
    · simp [MainArray.reportLine, hex, hsg, hfmt, MainArray.fmtInt_natCast]

/-- C14, at pid 4242 with a normal exit of code 3 and at pid 77 killed by signal 15. -/
theorem handleSIGCHLD_report_witness :
    (handleSIGCHLD 4242 768).map bytesWritten =
      some "background pid 4242 is done: exit value 3\n".toList ∧
    (handleSIGCHLD 77 15).map bytesWritten =
      some "background pid 77 is done: terminated by signal 15\n".toList :=
  ⟨(handleSIGCHLD_report 4242 768 (by decide) (by decide)).1,
   (handleSIGCHLD_report 77 15 (by decide) (by decide)).1⟩

end MainSignal

namespace MainArray

/-! ## The suspend signal -/

/-- C15. For either value of the foreground-only flag, one invocation of
`handleSIGTSTP` flips the flag and changes no other field, so two consecutive
invocations give back the state they started from; and starting with the flag
off, after two invocations `parseCommand` on `cmd &` sets the background flag
and calls `executeCommand` with `args = [cmd]`, from every state in which the
store of `cmd` at `args[argSize]` is inside the array (`parseCommand` has no
defined result from the other states). -/
theorem handleSIGTSTP_twice (inputs : command) :
    (handleSIGTSTP inputs).1 = { inputs with backgroundOff := !inputs.backgroundOff } ∧
    (handleSIGTSTP (handleSIGTSTP inputs).1).1 = inputs ∧
    (inputs.backgroundOff = false →
      parseCommand "cmd &".toList (handleSIGTSTP (handleSIGTSTP inputs).1).1 =
        if inputs.argSize < ARGS_LIMIT then
          some ({ pushArg inputs "cmd".toList with background := true }, .executeCommand)
        else none) := by
  have h1 : (handleSIGTSTP inputs).1 = { inputs with backgroundOff := !inputs.backgroundOff } := by
    unfold handleSIGTSTP
    cases h : inputs.backgroundOff <;> simp
  have h2 : (handleSIGTSTP (handleSIGTSTP inputs).1).1 = inputs := by
    obtain ⟨args, argSize, argExp, background, exitStatus, signalTerm, shellPid, inputFile,
      inputRe, outputFile, outputRe, backgroundOff, backgroundPids, bgPidSize⟩ := inputs
    cases backgroundOff <;> simp [handleSIGTSTP]
  refine ⟨h1, h2, ?_⟩
  intro hoff
  rw [h2]
  have htok : tokenize "cmd &".toList = [ "cmd".toList, ['&'] ] := by decide
  have hamp : endsWithAmp "cmd &".toList = true := by decide
  unfold parseCommand
  rw [htok, hamp]
  by_cases hlt : inputs.argSize < ARGS_LIMIT
  · rw [if_pos hlt]
    simp [parseTokens, parseLoop, storeArg_of_lt _ _ hlt, pushArg, hoff, hasMarker, strstr,
      startsWith, marker]
  · rw [if_neg hlt]
    simp [parseTokens, storeArg_of_ge _ _ (Nat.le_of_not_lt hlt)]

set_option maxRecDepth 8000 in
/-- C15, from the initial state: after two invocations the line `cmd &` is a
background command again. -/
theorem handleSIGTSTP_twice_witness :
    parseCommand "cmd &".toList (handleSIGTSTP (handleSIGTSTP (init 1234)).1).1 =
      some ({ init 1234 with args := [some "cmd".toList], argSize := 1, background := true },
            .executeCommand) :=
  (handleSIGTSTP_twice (init 1234)).2.2 rfl

end MainArray

/-! ## The `cd` command with a path -/

theorem skipSpaces_first (u : CStr) (c : Char) (s : CStr) (h : skipSpaces u = c :: s) :
    charAt u 0 = ' ' ∨ charAt u 0 = c := by
  cases u with
  | nil => simp [skipSpaces] at h
  | cons x u =>
    by_cases hx : x = ' '
    · left; simp [charAt, hx]
    · right
      simp only [skipSpaces, if_neg hx, List.cons.injEq] at h
      simp [charAt, h.1]

theorem tokenize_first_char (u t : CStr) (ts : List CStr) (h : tokenize u = t :: ts) :
    charAt u 0 = ' ' ∨ (t ≠ [] ∧ charAt u 0 = charAt t 0) := by
  rw [tokenize_step] at h
  unfold strtok_r at h
  cases hsk : skipSpaces u with
  | nil => rw [hsk] at h; simp at h
  | cons c s =>
    rw [hsk] at h
    simp only [List.cons.injEq] at h
    have hc : c ≠ ' ' := by
      have := skipSpaces_head u
      rw [hsk] at this
      simpa using this
    have ht : t = c :: (tokenEnd s).1 := by
      rw [← h.1]
      simp [tokenEnd, hc]
    rcases skipSpaces_first u c s hsk with h1 | h1
    · left; exact h1
    · right
      rw [ht, h1]
      exact ⟨by simp, by simp [charAt]⟩

namespace MainArray

theorem branchOf_cd_path (u path : CStr) (htok : tokenize u = [['c', 'd'], path])
    (hne : path ≠ ['&']) : branchOf u = .parse := by
  have hfirst : charAt u 0 = ' ' ∨ charAt u 0 = 'c' := by
    rcases tokenize_first_char u _ _ htok with h | ⟨_, h⟩
    · left; exact h
    · right; simpa [charAt] using h
  have h1 : charAt u 0 ≠ Char.ofNat 0 := by
    rcases hfirst with h | h <;> rw [h] <;> decide
  have h2 : charAt u 0 ≠ '#' := by
    rcases hfirst with h | h <;> rw [h] <;> decide
  have h3 : ¬ (u = "exit".toList ∨ u = "exit &".toList) := by
    rintro (rfl | rfl)
    · have h : tokenize "exit".toList = [ "exit".toList ] := by decide
      rw [h] at htok; simp at htok
    · have h : tokenize "exit &".toList = [ "exit".toList, ['&'] ] := by decide
      rw [h] at htok; simp at htok
  have h4 : ¬ (u = ['c', 'd'] ∨ u = "cd &".toList) := by
    rintro (rfl | rfl)
    · have h : tokenize ['c', 'd'] = [ ['c', 'd'] ] := by decide
      rw [h] at htok; simp at htok
    · have h : tokenize "cd &".toList = [ ['c', 'd'], ['&'] ] := by decide
      rw [h] at htok
      simp only [List.cons.injEq, and_true, true_and] at htok
      exact hne htok.symm
  have h5 : ¬ (u = "status".toList ∨ u = "status &".toList) := by
    rintro (rfl | rfl)
    · have h : tokenize "status".toList = [ "status".toList ] := by decide
      rw [h] at htok; simp at htok
    · have h : tokenize "status &".toList = [ "status".toList, ['&'] ] := by decide
      rw [h] at htok; simp at htok
  unfold branchOf
  rw [if_neg h1, if_neg h2, if_neg h3, if_neg h4, if_neg h5]

/-- C16, as the code has it. From a state with the argument fields reset
(`argSize = 0`, `args` empty) and no redirection pending (`inputRe` and
`outputRe` unset), for every line read whose tokens are `cd` and one plain
path: the only call the body of the main loop makes is `chdir(path)`, whose
result is not looked at, so nothing is printed, neither with `printf` nor with
`perror` nor with `write`, whether the call fails or not; the working directory
after the body is the path when the call succeeds and the directory it was
when the call fails; the last foreground disposition is unchanged and the loop
goes on with the next prompt. -/
theorem mainBody_cd_path (os : Answers) (home : Option CStr) (raw : CStr) (inputs : command)
    (path : CStr) (cwd : Option CStr)
    (htok : tokenize (trimLine raw) = [['c', 'd'], path]) (hplain : isPlain path = true)
    (hreset : inputs.argSize = 0 ∧ inputs.args = [] ∧ inputs.inputRe = false ∧
      inputs.outputRe = false) :
    mainBody os home raw inputs =
      { trace := [.chdir (.value (some path))], ending := .returned (resetLine inputs) } ∧
    (∀ text : CStr,
      Event.printf text ∉ (mainBody os home raw inputs).trace ∧
      Event.perror text ∉ (mainBody os home raw inputs).trace ∧
      Event.write text ∉ (mainBody os home raw inputs).trace) ∧
    (∀ result : Int,
      cwdAfter result cwd (mainBody os home raw inputs).trace =
        if result = 0 then some path else cwd) ∧
    (resetLine inputs).exitStatus = inputs.exitStatus ∧
    (resetLine inputs).signalTerm = inputs.signalTerm := by
  obtain ⟨hsize, hargs, hin, hout⟩ := hreset
  obtain ⟨_, hamp, _, _⟩ := (isPlain_iff path).mp hplain
  have hbranch := branchOf_cd_path (trimLine raw) path htok hamp
  have hparse : parseCommand (trimLine raw) inputs =
      some (pushArg inputs path, .chdir (.value (some path))) := by
    unfold parseCommand
    rw [htok]
    simp only [parseTokens, if_true]
    rw [parseLoop_plain_step _ _ _ _ _ hplain]
    simp [hin, hout, parseLoop, pushArg, hsize, hargs, readArg, arraySet, arrayGet, ARGS_LIMIT]
  have hmain : mainBody os home raw inputs =
      { trace := [.chdir (.value (some path))], ending := .returned (resetLine inputs) } := by
    unfold mainBody
    rw [hbranch]
    simp only [hparse]
    simp [resetLine, pushArg]
  refine ⟨hmain, ?_, ?_, rfl, rfl⟩
  · intro text
    rw [hmain]
    simp
  · intro result
    rw [hmain]
    by_cases hr : result = 0 <;> simp [cwdAfter, hr]

set_option maxRecDepth 8000 in
/-- C16, at the line `cd /nonexistent`: when `chdir` fails the working directory
stays what it was, when it succeeds it is the path; the loop goes on. -/
theorem mainBody_cd_path_witness :
    cwdAfter (-1) (some "/home/u".toList)
        (mainBody (allSucceed 4242 0) (some "/home/u".toList) "cd /nonexistent\n".toList
          (init 1234)).trace = some "/home/u".toList ∧
    cwdAfter 0 (some "/home/u".toList)
        (mainBody (allSucceed 4242 0) (some "/home/u".toList) "cd /nonexistent\n".toList
          (init 1234)).trace = some "/nonexistent".toList ∧
    (mainBody (allSucceed 4242 0) (some "/home/u".toList) "cd /nonexistent\n".toList
        (init 1234)).ending = .returned (resetLine (init 1234)) :=
  ⟨(mainBody_cd_path (allSucceed 4242 0) (some "/home/u".toList) "cd /nonexistent\n".toList
      (init 1234) "/nonexistent".toList (some "/home/u".toList) (by decide) (by decide)
      (by decide)).2.2.1 (-1),
    (mainBody_cd_path (allSucceed 4242 0) (some "/home/u".toList) "cd /nonexistent\n".toList
      (init 1234) "/nonexistent".toList (some "/home/u".toList) (by decide) (by decide)
      (by decide)).2.2.1 0,
    congrArg Run.ending
      (mainBody_cd_path (allSucceed 4242 0) (some "/home/u".toList) "cd /nonexistent\n".toList
        (init 1234) "/nonexistent".toList (some "/home/u".toList) (by decide) (by decide)
        (by decide)).1⟩

set_option maxRecDepth 8000 in
/-- C16 as stated fails: on `cd /nonexistent` the only call the shell makes is
`chdir("/nonexistent")`, whose result is not looked at; nothing is printed,
neither with `printf` nor with `perror` nor with `write`. -/
theorem mainBody_cd_nonexistent :
    mainBody (allSucceed 4242 0) (some "/home/u".toList) "cd /nonexistent\n".toList (init 1234) =
      { trace := [.chdir (.value (some "/nonexistent".toList))],
        ending := .returned (init 1234) } ∧
    ∀ text : CStr,
      Event.printf text ∉ (mainBody (allSucceed 4242 0) (some "/home/u".toList)
        "cd /nonexistent\n".toList (init 1234)).trace ∧
      Event.perror text ∉ (mainBody (allSucceed 4242 0) (some "/home/u".toList)
        "cd /nonexistent\n".toList (init 1234)).trace ∧
      Event.write text ∉ (mainBody (allSucceed 4242 0) (some "/home/u".toList)
        "cd /nonexistent\n".toList (init 1234)).trace := by
  have h : mainBody (allSucceed 4242 0) (some "/home/u".toList) "cd /nonexistent\n".toList
      (init 1234) =
      { trace := [.chdir (.value (some "/nonexistent".toList))],
        ending := .returned (init 1234) } := by decide
  refine ⟨h, ?_⟩
  intro text
  rw [h]
  simp

/-! ## The scan of the background table -/

theorem pollLoop_eq_scanRef (probe : Nat → Int → Int × Nat) :
    ∀ (rest done : List Int) (fuel : Nat) (t : List Event),
      done.length + rest.length = PROCESS_LIMIT → rest.length ≤ fuel →
      pollLoop probe fuel done.length (done ++ rest) t =
        (done ++ (scanRef probe done.length rest).1, t ++ (scanRef probe done.length rest).2) := by
  intro rest
  induction rest with
  | nil =>
    intro done fuel t hlen _
    simp only [List.length_nil, Nat.add_zero] at hlen
    cases fuel with
    | zero => simp [pollLoop, scanRef]
    | succ f => simp [pollLoop, scanRef, hlen]
  | cons pid rest ih =>
    intro done fuel t hlen hfuel
    cases fuel with
    | zero => simp at hfuel
    | succ f =>
      have hi : done.length < PROCESS_LIMIT := by simp at hlen; omega
      have hget : (done ++ pid :: rest).getD done.length 0 = pid := by
        rw [List.getD_eq_getElem?_getD, List.getElem?_append_right (Nat.le_refl _)]
        simp
      have hstep : ∀ x : Int, done ++ x :: rest = (done ++ [x]) ++ rest := by
        intro x; simp
      have hlen' : ∀ x : Int, (done ++ [x]).length + rest.length = PROCESS_LIMIT := by
        intro x; simp at hlen ⊢; omega
      have hl1 : ∀ x : Int, (done ++ [x]).length = done.length + 1 := by
        intro x; simp
      have hf : rest.length ≤ f := by simp at hfuel; omega
      rw [pollLoop, if_pos hi, hget]
      by_cases hpid : pid = 0
      · subst hpid
        simp only [ne_eq, not_true_eq_false, if_false]
        have h := ih (done ++ [0]) f t (hlen' 0) hf
        rw [hl1] at h
        rw [hstep 0, h]
        simp [scanRef, slotAfter, slotEvents]
      · rw [if_pos hpid]
        by_cases hr : 0 < (probe done.length pid).1
        · rw [if_pos hr]
          have hset : (done ++ pid :: rest).set done.length 0 = (done ++ [0]) ++ rest := by
            simp [List.set_append]
          have h := ih (done ++ [0]) f
            (t ++ [.waitpid pid true] ++
              reportLine (probe done.length pid).1 (probe done.length pid).2) (hlen' 0) hf
          rw [hl1] at h
          rw [hset, h]
          simp [scanRef, slotAfter, slotEvents, hpid, hr]
        · rw [if_neg hr]
          have h := ih (done ++ [pid]) f (t ++ [.waitpid pid true]) (hlen' pid) hf
          rw [hl1] at h
          rw [hstep pid, h]
          simp [scanRef, slotAfter, slotEvents, hpid, hr]

theorem scanRef_length (probe : Nat → Int → Int × Nat) :
    ∀ (rest : List Int) (i : Nat), (scanRef probe i rest).1.length = rest.length := by
  intro rest
  induction rest with
  | nil => intro i; rfl
  | cons pid rest ih => intro i; simp [scanRef, ih]

theorem parseCommand_bgLine (inputs : command)
    (hoff : inputs.backgroundOff = false) (hin : inputs.inputRe = false)
    (hout : inputs.outputRe = false) (hsize : inputs.argSize = 0) :
    parseCommand (trimLine bgLine) inputs =
      some ({ pushArg (pushArg inputs "sleep".toList) ['5'] with background := true },
            .executeCommand) := by
  have htrim : trimLine bgLine = "sleep 5 &".toList := by decide
  have htok : tokenize "sleep 5 &".toList = [ "sleep".toList, ['5'], ['&'] ] := by decide
  have hamp : endsWithAmp "sleep 5 &".toList = true := by decide
  unfold parseCommand
  rw [htrim, htok, hamp]
  simp [parseTokens, parseLoop, storeArg, pushArg, hsize, ARGS_LIMIT, hoff, hin, hout, hasMarker,
    strstr, startsWith, marker]

theorem mainIteration_bgLine (probe : Nat → Int → Int × Nat) (childPid : Int)
    (inputs : command) (hpid : 0 < childPid)
    (hoff : inputs.backgroundOff = false) (hin : inputs.inputRe = false)
    (hout : inputs.outputRe = false) (hsize : inputs.argSize = 0) :
    afterRun (mainIteration probe (allSucceed childPid 0) none (some bgLine) inputs) inputs =
      { resetLine inputs with
        backgroundPids :=
          (pollBackground probe inputs.backgroundPids).1.set inputs.bgPidSize childPid
        bgPidSize := if inputs.bgPidSize + 1 = 200 then 0 else inputs.bgPidSize + 1 } := by
  have hbranch : branchOf (trimLine bgLine) = .parse := by decide
  have hparse := parseCommand_bgLine
    { inputs with backgroundPids := (pollBackground probe inputs.backgroundPids).1 }
    hoff hin hout hsize
  have h1 : childPid ≠ -1 := by omega
  have h0 : childPid ≠ 0 := by omega
  simp only [afterRun, mainIteration, mainBody, hbranch, hparse]
  simp [executeCommand, allSucceed, h1, h0, parentBranch, pushArg, resetLine]

theorem pollBackground_eq_scanRef (probe : Nat → Int → Int × Nat) (backgroundPids : List Int)
    (hlen : backgroundPids.length = PROCESS_LIMIT) :
    pollBackground probe backgroundPids = scanRef probe 0 backgroundPids := by
  unfold pollBackground
  have h := pollLoop_eq_scanRef probe backgroundPids [] PROCESS_LIMIT []
    (by simpa using hlen) (by omega)
  simpa using h

theorem pollBackground_length (probe : Nat → Int → Int × Nat) (backgroundPids : List Int)
    (hlen : backgroundPids.length = PROCESS_LIMIT) :
    (pollBackground probe backgroundPids).1.length = PROCESS_LIMIT := by
  rw [pollBackground_eq_scanRef probe backgroundPids hlen, scanRef_length, hlen]

theorem scanRef_stillRunning :
    ∀ (rest : List Int) (i : Nat), (scanRef stillRunning i rest).1 = rest := by
  intro rest
  induction rest with
  | nil => intro i; rfl
  | cons pid rest ih =>
    intro i
    simp [scanRef, slotAfter, stillRunning, ih]

theorem session_append (a b : List ((Nat → Int → Int × Nat) × Int)) (inputs : command) :
    session (a ++ b) inputs = session b (session a inputs) := by
  induction a generalizing inputs with
  | nil => rfl
  | cons x a ih =>
    obtain ⟨probe, pid⟩ := x
    simp only [List.cons_append, session]
    exact ih _

/-- What every session of background commands keeps true, after `n` registrations. -/
theorem session_invariant :
    ∀ (steps : List ((Nat → Int → Int × Nat) × Int)) (inputs : command) (n : Nat),
      (∀ x ∈ steps, 0 < x.2) →
      inputs.backgroundOff = false → inputs.inputRe = false → inputs.outputRe = false →
      inputs.bgPidSize = n % 200 → inputs.backgroundPids.length = PROCESS_LIMIT →
      inputs.argSize = 0 →
      (session steps inputs).backgroundOff = false ∧ (session steps inputs).inputRe = false ∧
      (session steps inputs).outputRe = false ∧
      (session steps inputs).bgPidSize = (n + steps.length) % 200 ∧
      (session steps inputs).backgroundPids.length = PROCESS_LIMIT ∧
      (session steps inputs).argSize = 0 := by
  intro steps
  induction steps with
  | nil =>
    intro inputs n _ h1 h2 h3 h4 h5 h6
    exact ⟨h1, h2, h3, by simpa using h4, h5, h6⟩
  | cons x steps ih =>
    intro inputs n hpos h1 h2 h3 h4 h5 h6
    obtain ⟨probe, pid⟩ := x
    have hpid : 0 < pid := hpos (probe, pid) (List.mem_cons_self _ _)
    have hrest : ∀ y ∈ steps, 0 < y.2 := fun y hy => hpos y (List.mem_cons_of_mem _ hy)
    simp only [session]
    rw [mainIteration_bgLine probe pid inputs hpid h1 h2 h3 h6]
    have h := ih
      { resetLine inputs with
        backgroundPids :=
          (pollBackground probe inputs.backgroundPids).1.set inputs.bgPidSize pid
        bgPidSize := if inputs.bgPidSize + 1 = 200 then 0 else inputs.bgPidSize + 1 }
      (n + 1) hrest (by simpa [resetLine] using h1) (by simpa [resetLine] using h2)
      (by simpa [resetLine] using h3)
      (by
        simp only [h4]
        split <;> omega)
      (by
        simp only [List.length_set]
        exact pollBackground_length probe _ h5)
      (by simp [resetLine])
    have hlen : n + 1 + steps.length = n + (steps.length + 1) := by omega
    rw [hlen] at h
    simpa using h

theorem session_last (steps : List ((Nat → Int → Int × Nat) × Int)) (shellPid : Int)
    (probe : Nat → Int → Int × Nat) (childPid : Int)
    (hsteps : ∀ x ∈ steps, 0 < x.2) (hpid : 0 < childPid) :
    (session (steps ++ [(probe, childPid)]) (init shellPid)).backgroundPids =
      (pollBackground probe (session steps (init shellPid)).backgroundPids).1.set
        (steps.length % 200) childPid := by
  have hinv := session_invariant steps (init shellPid) 0 hsteps rfl rfl rfl rfl
    (by simp [init]) rfl
  obtain ⟨h1, h2, h3, h4, _, h6⟩ := hinv
  rw [session_append]
  simp only [session]
  rw [mainIteration_bgLine probe childPid _ hpid h1 h2 h3 h6]
  simp only [h4, Nat.zero_add]

theorem session_table (shellPid : Int) :
    ∀ pids : List Int, (∀ p ∈ pids, 0 < p) → pids.length ≤ 200 →
      (session (pids.map (fun p => (stillRunning, p))) (init shellPid)).backgroundPids =
        pids ++ List.replicate (200 - pids.length) 0 := by
  intro pids
  induction pids using List.reverseRecOn with
  | nil =>
    intro _ _
    simp [session, init, PROCESS_LIMIT]
  | append_singleton l a ih =>
    intro hpos hlen
    have hl : l.length < 200 := by simp at hlen; omega
    have hposl : ∀ p ∈ l, 0 < p := fun p hp => hpos p (List.mem_append_left _ hp)
    have ha : 0 < a := hpos a (by simp)
    have htable := ih hposl (by omega)
    have hsteps : ∀ x ∈ l.map (fun p => ((stillRunning, p) : (Nat → Int → Int × Nat) × Int)),
        0 < x.2 := by
      intro x hx
      obtain ⟨p, hp, rfl⟩ := List.mem_map.mp hx
      exact hposl p hp
    have hlast := session_last (l.map (fun p => (stillRunning, p))) shellPid stillRunning a
      hsteps ha
    rw [List.map_append, List.map_singleton, hlast, htable]
    have hlen200 : (l ++ List.replicate (200 - l.length) 0).length = PROCESS_LIMIT := by
      simp [PROCESS_LIMIT]; omega
    rw [pollBackground_eq_scanRef _ _ hlen200, scanRef_stillRunning]
    simp only [List.length_map, Nat.mod_eq_of_lt hl]
    have hrep : List.replicate (200 - l.length) (0 : Int) =
        0 :: List.replicate (200 - (l ++ [a]).length) 0 := by
      rw [← List.replicate_succ]
      congr 1
      simp; omega
    rw [hrep, List.set_append_right _ _ (Nat.le_refl _)]
    simp

/-- C19. Polling build, from the initial state, in any session of background
commands (the scans before the prompts having any outcome): after `n`
registrations the write index is `n mod 200`, within 0..199, and the table has
its 200 entries; the next registration writes its pid to slot `n mod 200` of
the table as the scan left it, whatever that slot holds, and to no other slot;
from any state with the write index within 0..199, `executeCommand` on a
background command writes the child's pid at the write index and advances the
index modulo 200. Hence, when no child is ever reaped, the table after 200 registrations holds
the 200 pids in order and the 201st registration overwrites slot 0, the slot of
the first pid, which is dropped from the table. -/
theorem registration_cycle (steps : List ((Nat → Int → Int × Nat) × Int)) (shellPid : Int)
    (probe : Nat → Int → Int × Nat) (childPid : Int)
    (hsteps : ∀ x ∈ steps, 0 < x.2) (hpid : 0 < childPid) :
    (session steps (init shellPid)).bgPidSize = steps.length % 200 ∧
    (session steps (init shellPid)).bgPidSize < PROCESS_LIMIT ∧
    (session steps (init shellPid)).backgroundPids.length = PROCESS_LIMIT ∧
    (session (steps ++ [(probe, childPid)]) (init shellPid)).backgroundPids =
      (pollBackground probe (session steps (init shellPid)).backgroundPids).1.set
        (steps.length % 200) childPid ∧
    (session (steps ++ [(probe, childPid)]) (init shellPid)).backgroundPids.getD
      (steps.length % 200) 0 = childPid ∧
    (∀ (os : Answers) (inputs : command), inputs.background = true → os.fork = childPid →
      inputs.bgPidSize < PROCESS_LIMIT →
      (executeCommand os inputs).ending =
        .returned { inputs with
          backgroundPids := inputs.backgroundPids.set inputs.bgPidSize childPid
          bgPidSize := (inputs.bgPidSize + 1) % 200 }) ∧
    (∀ pids : List Int, pids.length = 200 → (∀ p ∈ pids, 0 < p) →
      (session (pids.map (fun p => (stillRunning, p))) (init shellPid)).backgroundPids = pids ∧
      (session ((pids ++ [childPid]).map (fun p => (stillRunning, p)))
        (init shellPid)).backgroundPids = childPid :: pids.tail) := by
  have hinv := session_invariant steps (init shellPid) 0 hsteps rfl rfl rfl rfl
    (by simp [init]) rfl
  obtain ⟨_, _, _, h4, h5, _⟩ := hinv
  simp only [Nat.zero_add] at h4
  have hlast := session_last steps shellPid probe childPid hsteps hpid
  have hmod : steps.length % 200 < 200 := Nat.mod_lt _ (by decide)
  refine ⟨h4, ?_, h5, hlast, ?_, ?_, ?_⟩
  · rw [h4]
    exact hmod
  · rw [hlast]
    have hlen := pollBackground_length probe _ h5
    rw [List.getD_eq_getElem?_getD, List.getElem?_set_self]
    · rfl
    · rw [hlen]
      exact hmod
  · intro os inputs hbg hfork hidx
    have h1 : os.fork ≠ -1 := by omega
    have h0 : os.fork ≠ 0 := by omega
    have hwrap : (if inputs.bgPidSize + 1 = 200 then 0 else inputs.bgPidSize + 1) =
        (inputs.bgPidSize + 1) % 200 := by
      unfold PROCESS_LIMIT at hidx
      split <;> omega
    unfold executeCommand
    rw [if_neg h1, if_neg h0]
    unfold parentBranch
    rw [if_pos hbg, hwrap, hfork]
  · intro pids hlen hpos
    have htable := session_table shellPid pids hpos (by omega)
    rw [hlen] at htable
    simp only [Nat.sub_self, List.replicate_zero, List.append_nil] at htable
    refine ⟨htable, ?_⟩
    have hsteps' : ∀ x ∈ pids.map (fun p => ((stillRunning, p) : (Nat → Int → Int × Nat) × Int)),
        0 < x.2 := by
      intro x hx
      obtain ⟨p, hp, rfl⟩ := List.mem_map.mp hx
      exact hpos p hp
    have h := session_last (pids.map (fun p => (stillRunning, p))) shellPid stillRunning
      childPid hsteps' hpid
    rw [List.map_append, List.map_singleton, h, htable]
    have hlen200 : pids.length = PROCESS_LIMIT := hlen
    rw [pollBackground_eq_scanRef _ _ hlen200, scanRef_stillRunning]
    simp only [List.length_map, hlen, Nat.mod_self]
    cases pids with
    | nil => simp at hlen
    | cons p rest => simp

set_option maxRecDepth 20000 in
/-- C19, at the first registration (pid 4242 goes to slot 0) and at the 201st
of a session whose first 200 children all got pid 7 and are still running (pid
9 replaces the first entry). -/
theorem registration_cycle_witness :
    (session ([] ++ [(stillRunning, 4242)]) (init 1234)).backgroundPids.getD 0 0 = 4242 ∧
    (session ((List.replicate 200 7 ++ [9]).map (fun p => (stillRunning, p)))
      (init 1234)).backgroundPids = 9 :: List.replicate 199 7 :=
  ⟨(registration_cycle [] 1234 stillRunning 4242 (by simp) (by decide)).2.2.2.2.1,
   ((registration_cycle [] 1234 stillRunning 9 (by simp) (by decide)).2.2.2.2.2.2
      (List.replicate 200 7) (by decide) (by decide)).2⟩

/-! ## The main loop on particular lines -/

/-- A line that reaches `parseCommand` has a first token: the first `strtok_r`
call does not return `NULL`. -/
theorem tokenize_trimLine_ne_nil (raw : CStr) (h : branchOf (trimLine raw) = .parse) :
    tokenize (trimLine raw) ≠ [] := by
  cases hlast : (trimLine raw).getLast? with
  | none =>
    have hnil : trimLine raw = [] := by simpa using hlast
    rw [hnil] at h
    simp [branchOf, charAt] at h
  | some c =>
    have hc : c ≠ ' ' := by
      intro e; subst e; exact trimLine_getLast raw hlast
    obtain ⟨ts, t, hts, _⟩ := tokenize_getLast (trimLine raw) c hlast hc
    rw [hts]
    simp

set_option maxRecDepth 8000 in
/-- C12, at a line of three spaces and at the comment line `# a comment`. -/
theorem mainBody_blank_or_comment_witness :
    (mainBody (allSucceed 4242 0) none "   \n".toList (init 1234)).trace = [] ∧
    (mainBody (allSucceed 4242 0) none "   \n".toList (init 1234)).ending =
      .returned (init 1234) ∧
    (mainBody (allSucceed 4242 0) none "# a comment\n".toList (init 1234)).trace =
      [.printf ['\n']] ∧
    (mainBody (allSucceed 4242 0) none "# a comment\n".toList (init 1234)).ending =
      .returned (init 1234) :=
  ⟨(mainBody_blank_or_comment (allSucceed 4242 0) none "   ".toList '\n' (init 1234)
      (Or.inl (by decide))).2.1,
   (mainBody_blank_or_comment (allSucceed 4242 0) none "   ".toList '\n' (init 1234)
      (Or.inl (by decide))).2.2.1,
   (mainBody_blank_or_comment (allSucceed 4242 0) none "# a comment".toList '\n' (init 1234)
      (Or.inr (by decide))).2.1,
   (mainBody_blank_or_comment (allSucceed 4242 0) none "# a comment".toList '\n' (init 1234)
      (Or.inr (by decide))).2.2.1⟩

set_option maxRecDepth 20000 in
/-- C17 on the code, polling build. The line `true &` is run with child pid
4242, and the child has already terminated (status 0) when `executeCommand`
makes its own `waitpid(childPid, &childExitStatus, WNOHANG)`: that call reaps
the child, and nothing but `background pid is: 4242` is printed. From then on
the kernel answers -1 for this pid, so every scan probes slot 0, prints nothing
and leaves 4242 in the table: the termination is never reported. -/
theorem background_child_reaped_at_registration :
    mainBody (allSucceed 4242 0) none "true &\n".toList (init 1234) =
      { trace := [.fork, .waitpid 4242 true, .printf "background pid is: 4242\n".toList],
        ending := .returned
          { init 1234 with
            backgroundPids := 4242 :: List.replicate 199 0
            bgPidSize := 1 } } ∧
    waitpidNoHang 4242 (.terminated 0) = (4242, 0, .reaped) ∧
    (∀ pid, waitpidNoHang pid .reaped = (-1, 0, .reaped)) ∧
    pollBackground (kernelProbe .reaped) (4242 :: List.replicate 199 0) =
      (4242 :: List.replicate 199 0, [.waitpid 4242 true]) ∧
    ∀ n : Nat,
      Nat.iterate (fun table => (pollBackground (kernelProbe .reaped) table).1) n
        (4242 :: List.replicate 199 0) = 4242 :: List.replicate 199 0 := by
  have hscan : pollBackground (kernelProbe .reaped) (4242 :: List.replicate 199 0) =
      (4242 :: List.replicate 199 0, [.waitpid 4242 true]) := by decide
  refine ⟨by decide, rfl, fun _ => rfl, hscan, ?_⟩
  intro n
  induction n with
  | zero => rfl
  | succ n ih =>
    rw [Function.iterate_succ_apply', ih, hscan]

set_option maxRecDepth 20000 in
/-- C20 on the code. The session `ls >` then `echo a b`: the first line leaves
`outputRe` set, the per-line reset does not clear it, and the second line is
parsed into `args = [echo, b]` with output file `a`, whereas the same line
parsed first in a session gives `args = [echo, a, b]` and no output file. -/
theorem parseCommand_after_pending_redirect :
    afterRun (mainBody (allSucceed 4242 0) none "ls >\n".toList (init 1234)) (init 1234) =
      { init 1234 with outputRe := true } ∧
    parseCommand (trimLine "echo a b\n".toList) { init 1234 with outputRe := true } =
      some ({ init 1234 with
                args := [some "echo".toList, some ['b']]
                argSize := 2
                outputFile := some ['a'] },
            .executeCommand) ∧
    parseCommand (trimLine "echo a b\n".toList) (init 1234) =
      some ({ init 1234 with
                args := [some "echo".toList, some ['a'], some ['b']]
                argSize := 3 },
            .executeCommand) := by
  decide

set_option maxRecDepth 20000 in
/-- C12 as stated fails on a line of one tab: a tab is whitespace, but only
spaces are trimmed and only spaces separate tokens, so the line is a command
whose name is the tab, and `executeCommand` is called and forks. It also fails
for a whole iteration on an empty line when a background child has terminated:
the scan at the top of the iteration prints the report and frees the slot, and
the prompt is printed. -/
theorem mainBody_tab_line :
    branchOf (trimLine "\t\n".toList) = .parse ∧
    parseCommand (trimLine "\t\n".toList) (init 1234) =
      some ({ init 1234 with args := [some "\t".toList], argSize := 1 }, .executeCommand) ∧
    (mainBody (allSucceed 4242 0) none "\t\n".toList (init 1234)).trace =
      [.fork, .waitpid 4242 false, .sigaction .SIGINT .ignoreAction] ∧
    mainIteration (kernelProbe (.terminated 0)) (allSucceed 4242 0) none (some "\n".toList)
        { init 1234 with backgroundPids := 4242 :: List.replicate 199 0, bgPidSize := 1 } =
      { trace :=
          [.waitpid 4242 true,
            .printf "background pid 4242 is done: exit value 0\n".toList,
            .printf ": ".toList],
        ending := .returned
          { init 1234 with backgroundPids := List.replicate 200 0, bgPidSize := 1 } } := by
  decide

end MainArray

/-! ## The capacity of the argument array -/

theorem tokenize_manyTokens (n : Nat) :
    tokenize (manyTokens n) = List.replicate (n + 1) ['a'] := by
  induction n with
  | zero => decide
  | succ n ih =>
    rw [tokenize_step]
    have h : strtok_r (manyTokens (n + 1)) = some (['a'], manyTokens n) := by
      simp [manyTokens, strtok_r, skipSpaces, tokenEnd]
    rw [h]
    simp only [ih]
    rfl

namespace MainArray

theorem parseLoop_replicate (bgArg : Bool) :
    ∀ (n : Nat) (c : command), c.inputRe = false → c.outputRe = false →
      c.argSize + n ≤ ARGS_LIMIT →
      parseLoop false bgArg (List.replicate n ['a']) c =
        some ({ c with
            args := pushAll c.args c.argSize (List.replicate n ['a'])
            argSize := c.argSize + n },
          .executeCommand) := by
  intro n
  induction n with
  | zero =>
    intro c _ _ _
    simp [parseLoop, pushAll]
  | succ n ih =>
    intro c hin hout hcap
    have hlt : c.argSize < ARGS_LIMIT := by omega
    rw [List.replicate_succ, parseLoop_plain_step _ _ _ _ _ (by decide)]
    simp only [hin, hout, Bool.false_eq_true, if_false, hlt, if_true]
    rw [ih (pushArg c ['a']) hin hout (by simp only [pushArg]; omega)]
    simp only [pushArg, pushAll]
    congr 3
    omega

theorem parseLoop_replicate_overflow (bgArg : Bool) :
    ∀ (n : Nat) (c : command), c.inputRe = false → c.outputRe = false →
      c.argSize ≤ ARGS_LIMIT → ARGS_LIMIT < c.argSize + n →
      parseLoop false bgArg (List.replicate n ['a']) c = none := by
  intro n
  induction n with
  | zero =>
    intro c _ _ h1 h2
    omega
  | succ n ih =>
    intro c hin hout h1 h2
    rw [List.replicate_succ, parseLoop_plain_step _ _ _ _ _ (by decide)]
    simp only [hin, hout, Bool.false_eq_true, if_false]
    by_cases hlt : c.argSize < ARGS_LIMIT
    · rw [if_pos hlt]
      exact ih (pushArg c ['a']) hin hout (by simp only [pushArg]; omega)
        (by simp only [pushArg]; omega)
    · rw [if_neg hlt]

/-- The line of `n + 1` tokens `a`, from the reset state: the tokens are stored
whole when they are at most `ARGS_LIMIT`, and with more of them a store is made
outside the array. -/
theorem parseCommand_manyTokens (n : Nat) (inputs : command)
    (hargs : inputs.args = [] ∧ inputs.argSize = 0)
    (hre : inputs.inputRe = false ∧ inputs.outputRe = false) :
    parseCommand (manyTokens n) inputs =
      if n + 1 ≤ ARGS_LIMIT then
        some ({ inputs with
                  args := List.replicate (n + 1) (some ['a'])
                  argSize := n + 1 },
              .executeCommand)
      else none := by
  obtain ⟨args, argSize, argExp, background, exitStatus, signalTerm, shellPid, inputFile,
    inputRe, outputFile, outputRe, backgroundOff, backgroundPids, bgPidSize⟩ := inputs
  simp only at hargs hre
  obtain ⟨rfl, rfl⟩ := hargs
  obtain ⟨rfl, rfl⟩ := hre
  unfold parseCommand
  rw [tokenize_manyTokens, List.replicate_succ]
  simp only [parseTokens, show ¬ (['a'] : CStr) = ['c', 'd'] by decide, if_false]
  rw [storeArg_of_lt _ _ (by simp [ARGS_LIMIT])]
  simp only
  by_cases hcap : n + 1 ≤ ARGS_LIMIT
  · rw [if_pos hcap, parseLoop_replicate _ n _ rfl rfl (by simp only [pushArg]; omega)]
    have hpush := pushAll_map_some (List.replicate n ['a']) [['a']]
    simp only [List.map_cons, List.map_nil, List.length_singleton, List.singleton_append,
      List.map_replicate] at hpush
    simp [pushArg, arraySet, hpush, List.replicate_succ, Nat.add_comm]
  · rw [if_neg hcap]
    exact parseLoop_replicate_overflow _ n _ rfl rfl (by simp [pushArg, ARGS_LIMIT])
      (by simp only [pushArg]; omega)

/-- C21 on the code. On the line of 512 tokens `a` every store is inside the
array and `argSize` ends at 512, the value of `ARGS_LIMIT`. On the line of 513
tokens `a` the first 512 tokens are stored in the same way, and the 513th is
stored by `inputs.args[inputs.argSize] = token` with `argSize = 512`, at an
index outside `args`: no test of the index precedes the store, and
`parseCommand` has no defined result. For every `n`, from the reset state, the
line of `n + 1` tokens `a` is parsed with all its stores inside the array
exactly when `n + 1` is at most `ARGS_LIMIT`. -/
theorem parseCommand_args_overflow :
    ARGS_LIMIT = 512 ∧
    (tokenize (manyTokens 511)).length = 512 ∧
    parseCommand (manyTokens 511) (init 1234) =
      some ({ init 1234 with
                args := List.replicate 512 (some ['a'])
                argSize := 512 },
            .executeCommand) ∧
    (tokenize (manyTokens 512)).length = 513 ∧
    storeArg { init 1234 with args := List.replicate 512 (some ['a']), argSize := 512 } ['a'] =
      none ∧
    readArg (List.replicate 512 (some ['a'])) 512 = .outOfBounds 512 ∧
    parseCommand (manyTokens 512) (init 1234) = none ∧
    (∀ (n : Nat) (inputs : command),
      inputs.args = [] ∧ inputs.argSize = 0 → inputs.inputRe = false ∧ inputs.outputRe = false →
      parseCommand (manyTokens n) inputs =
        if n + 1 ≤ ARGS_LIMIT then
          some ({ inputs with
                    args := List.replicate (n + 1) (some ['a'])
                    argSize := n + 1 },
                .executeCommand)
        else none) := by
  refine ⟨rfl, ?_, ?_, ?_, by decide, by decide, ?_, ?_⟩
  · rw [tokenize_manyTokens, List.length_replicate]
  · rw [parseCommand_manyTokens 511 (init 1234) ⟨rfl, rfl⟩ ⟨rfl, rfl⟩, if_pos (by decide)]
  · rw [tokenize_manyTokens, List.length_replicate]
  · rw [parseCommand_manyTokens 512 (init 1234) ⟨rfl, rfl⟩ ⟨rfl, rfl⟩, if_neg (by decide)]
  · intro n inputs hargs hre
    exact parseCommand_manyTokens n inputs hargs hre

end MainArray

/-! ## The expansion in the signal-driven build -/

theorem strstr_marker_cons_cons (c d : Char) (rest : CStr) :
    strstr (c :: d :: rest) marker =
      if c = '$' ∧ d = '$' then some 0 else (strstr (d :: rest) marker).map (· + 1) := by
  by_cases h : c = '$' ∧ d = '$'
  · obtain ⟨rfl, rfl⟩ := h
    simp [strstr, startsWith, marker]
  · rw [if_neg h]
    have hs : startsWith (c :: d :: rest) marker = false := by
      simp only [startsWith, marker, Bool.and_true, Bool.and_eq_false_imp, beq_iff_eq]
      intro hc
      simpa using fun hd => h ⟨hc, hd⟩
    simp [strstr, hs]

theorem strstr_marker_pair (p : CStr) :
    ∀ (token : CStr) (k : Nat), strstr token marker = some k →
      scanPairs token = scanPairs (token.drop (k + VAR_LENGTH)) + 1 ∧
      expandRef p token = token.take k ++ p ++ expandRef p (token.drop (k + VAR_LENGTH))
  | [], k, h => by simp [strstr, marker] at h
  | [c], k, h => by simp [strstr, startsWith, marker] at h
  | c :: d :: rest, k, h => by
    rw [strstr_marker_cons_cons] at h
    by_cases hp : c = '$' ∧ d = '$'
    · rw [if_pos hp] at h
      cases h
      simp [scanPairs, expandRef, hp, VAR_LENGTH]
    · rw [if_neg hp] at h
      cases hk : strstr (d :: rest) marker with
      | none => simp [hk] at h
      | some j =>
        simp only [hk, Option.map_some', Option.some.injEq] at h
        subst h
        obtain ⟨h1, h2⟩ := strstr_marker_pair p (d :: rest) j hk
        simp only [scanPairs, expandRef, if_neg hp]
        refine ⟨?_, ?_⟩
        · rw [h1]
          simp [VAR_LENGTH, Nat.add_right_comm]
        · rw [h2]
          simp [VAR_LENGTH, Nat.add_right_comm]

theorem strstr_marker_none :
    ∀ (token : CStr), strstr token marker = none → scanPairs token = 0
  | [], _ => rfl
  | [_], _ => rfl
  | c :: d :: rest, h => by
    rw [strstr_marker_cons_cons] at h
    by_cases hp : c = '$' ∧ d = '$'
    · simp [hp] at h
    · rw [if_neg hp] at h
      simp only [scanPairs, if_neg hp]
      apply strstr_marker_none
      simpa using h

theorem expandRef_no_pair (p : CStr) :
    ∀ (token : CStr), scanPairs token = 0 → expandRef p token = token
  | [], _ => rfl
  | [_], _ => rfl
  | c :: d :: rest, h => by
    by_cases hp : c = '$' ∧ d = '$'
    · simp [scanPairs, hp] at h
    · simp only [scanPairs, if_neg hp] at h
      simp only [expandRef, if_neg hp]
      rw [expandRef_no_pair p (d :: rest) h]

theorem scanPairs_le_count :
    ∀ (token : CStr), VAR_LENGTH * scanPairs token ≤ token.count '$'
  | [] => by simp [scanPairs]
  | [_] => by simp [scanPairs]
  | c :: d :: rest => by
    by_cases hp : c = '$' ∧ d = '$'
    · obtain ⟨rfl, rfl⟩ := hp
      have := scanPairs_le_count rest
      simp [scanPairs, VAR_LENGTH] at this ⊢
      omega
    · have := scanPairs_le_count (d :: rest)
      simp only [scanPairs, if_neg hp]
      rw [List.count_cons]
      omega

namespace MainSignal

theorem varExpLoop_pairs (p : CStr) :
    ∀ (replaces : Nat) (token newToken : CStr),
      (scanPairs token < replaces → varExpLoop p replaces token newToken = none) ∧
      (scanPairs token = replaces →
        varExpLoop p replaces token newToken = some (newToken ++ expandRef p token))
  | 0, token, newToken => by
    refine ⟨fun h => absurd h (Nat.not_lt_zero _), fun h => ?_⟩
    simp [varExpLoop, expandRef_no_pair p token h]
  | replaces + 1, token, newToken => by
    cases hs : strstr token marker with
    | none =>
      have h0 := strstr_marker_none token hs
      refine ⟨fun _ => by simp [varExpLoop, hs], fun h => by omega⟩
    | some k =>
      obtain ⟨h1, h2⟩ := strstr_marker_pair p token k hs
      obtain ⟨ih1, ih2⟩ := varExpLoop_pairs p replaces (token.drop (k + VAR_LENGTH))
        (newToken ++ token.take k ++ p)
      simp only [varExpLoop, hs]
      refine ⟨fun h => ih1 (by omega), fun h => ?_⟩
      rw [ih2 (by omega), h2]
      simp [List.append_assoc]

/-- The signal-driven `varExp` in closed form: when the count of `$` characters,
halved, is the number of `$$` pairs a left-to-right scan finds, every search
succeeds and the result is the one of the polling build; otherwise the pid text
fits its buffer and a search returns `NULL` in one of the iterations, or it
does not fit. -/
theorem varExp_closed (shellPid : Int) (token : CStr) :
    varExp shellPid token =
      if scanPairs token = token.count '$' / VAR_LENGTH then MainArray.varExp shellPid token
      else none := by
  obtain ⟨h1, h2⟩ := varExpLoop_pairs (fmtInt shellPid) (token.count '$' / VAR_LENGTH) token []
  have hle := scanPairs_le_count token
  have hle2 : scanPairs token ≤ token.count '$' / VAR_LENGTH := by
    rw [Nat.le_div_iff_mul_le (by decide)]
    rw [Nat.mul_comm]
    exact hle
  rw [MainArray.varExp_expandRef_fmt]
  unfold varExp sprintfPid
  by_cases hfit : (fmtInt shellPid).length + 1 ≤ MAX_PID_LENGTH
  · simp only [if_pos hfit]
    by_cases h : scanPairs token = token.count '$' / VAR_LENGTH
    · rw [if_pos h, h2 h]
      rfl
    · rw [if_neg h, h1 (by omega)]
  · simp only [if_neg hfit]
    split <;> rfl

set_option maxRecDepth 8000 in
/-- C22 on the code. For the token `$$a$b$` the signal-driven build counts four
`$` characters and so runs two iterations; the first replaces the pair at
offset 0, the second searches `a$b$`, where `strstr` returns `NULL`, and the
function has no result. The polling build returns `1234a$b$` for the same
token and PID. -/
theorem varExp_search_fails :
    hasMarker ['$', '$', 'a', '$', 'b', '$'] = true ∧
    (['$', '$', 'a', '$', 'b', '$'] : CStr).count '$' / VAR_LENGTH = 2 ∧
    scanPairs ['$', '$', 'a', '$', 'b', '$'] = 1 ∧
    sprintfPid 1234 = some ['1', '2', '3', '4'] ∧
    strstr ['$', '$', 'a', '$', 'b', '$'] marker = some 0 ∧
    strstr ['a', '$', 'b', '$'] marker = none ∧
    varExp 1234 ['$', '$', 'a', '$', 'b', '$'] = none ∧
    MainArray.varExp 1234 ['$', '$', 'a', '$', 'b', '$'] =
      some ['1', '2', '3', '4', 'a', '$', 'b', '$'] := by
  decide

end MainSignal

end Smallsh
